import Mathlib

/-!
A verification development for the core-cartographer repository.

The Python sources are shallowly embedded as executable Lean definitions:

* `file_utils.py` — `find_base_name`, `find_translation_pair` (regex steps are
  embedded as explicit character-list scans with the same matching semantics);
* `gui/data_manager.py` — `find_pairs` (the full-set pairing algorithm over a
  table of rows; the pandas column updates are modelled as an association list,
  which agrees with the dataframe semantics for pairwise-distinct filenames);
* `models.py` — `Document`, `DocumentPair`, `DocumentSet` and the derived views
  `paired_documents` / `unpaired_documents` (the Python `sorted` builtin is
  modelled as a stable insertion sort under the same code-point string order);
* `extractor.py` — `_parse_response` and `_parse_batch_response` (each `re`
  pattern is embedded as a leftmost-match scanner with Python's greedy/lazy
  quantifier resolution spelled out), and the batch usage distribution;
* `cost_estimator.py` — `estimate_cost` (Python floats are modelled as exact
  rationals ℚ).

Machine integers do not overflow in any of the embedded code paths (Python
integers are unbounded), so `Nat`/`ℚ` are used directly.
-/

namespace CoreCartographer

/-! ### Character and string primitives

Python string/regex semantics used by the sources, modelled on ASCII:
`str.strip()`, `re` whitespace `\s`, `re.IGNORECASE` character comparison,
`str.upper()`/`str.lower()` (per-character, ASCII), and code-point order. -/

/-- ASCII letters (what `[a-z]` matches under `re.IGNORECASE`). -/
def isAsciiLetter (c : Char) : Bool :=
  (65 ≤ c.toNat && c.toNat ≤ 90) || (97 ≤ c.toNat && c.toNat ≤ 122)

/-- The whitespace class of Python's `str.strip()` and of regex `\s`
(ASCII fragment: space, tab, newline, carriage return, vertical tab, form feed). -/
def pyIsSpace (c : Char) : Bool :=
  c = ' ' || c = '\t' || c = '\n' || c = '\r' || c = '\x0b' || c = '\x0c'

/-- Case-insensitive character equality, as used by `re.IGNORECASE` (ASCII). -/
def lcEq (a b : Char) : Bool :=
  a = b
    || (a.toNat + 32 = b.toNat && 65 ≤ a.toNat && a.toNat ≤ 90)
    || (b.toNat + 32 = a.toNat && 65 ≤ b.toNat && b.toNat ≤ 90)

/-- Strip a case-insensitive literal pattern from the front of a character
list, returning the remainder on success. -/
def stripPrefixCI : List Char → List Char → Option (List Char)
  | [], s => some s
  | _ :: _, [] => none
  | p :: ps, c :: cs => if lcEq p c then stripPrefixCI ps cs else none

/-- Case-insensitive "starts with". -/
def startsWithCI (p s : List Char) : Bool :=
  (stripPrefixCI p s).isSome

/-- Case-sensitive substring test (`needle in hay` for Python strings). -/
def containsSub (n : List Char) : List Char → Bool
  | [] => n.isEmpty
  | c :: cs => n.isPrefixOf (c :: cs) || containsSub n cs

/-- Case-insensitive substring occurrence test. -/
def containsSubCI (n : List Char) : List Char → Bool
  | [] => n.isEmpty
  | c :: cs => startsWithCI n (c :: cs) || containsSubCI n cs

/-- Leftmost-match scanner: try `f` at every suffix position of the input
(including the empty suffix at the end), left to right; on the first position
where `f` succeeds return the consumed prefix together with `f`'s result.
This is the embedding of `re.search`'s leftmost-match rule. -/
def scanPosO (f : List Char → Option α) : List Char → Option (List Char × α)
  | [] => (f []).map (fun y => ([], y))
  | c :: cs =>
    match f (c :: cs) with
    | some y => some ([], y)
    | none => (scanPosO f cs).map (fun pr => (c :: pr.1, pr.2))

/-- Python `str.strip()` on a character list (ASCII whitespace). -/
def stripChars (l : List Char) : List Char :=
  ((l.dropWhile pyIsSpace).reverse.dropWhile pyIsSpace).reverse

/-- Python `str.strip()` on strings. -/
def pyStrip (s : String) : String :=
  ⟨stripChars s.data⟩

/-! ### Decimal rendering of naturals (Python's `str(n)` for `n ≥ 0`) -/

/-- Decimal digits of a natural number, most significant first. -/
def natChars (n : Nat) : List Char :=
  if h : n < 10 then [Char.ofNat (48 + n)]
  else natChars (n / 10) ++ [Char.ofNat (48 + n % 10)]
decreasing_by exact Nat.div_lt_self (by omega) (by omega)

/-- Python's `str(n)` for a non-negative integer. -/
def natToStr (n : Nat) : String :=
  ⟨natChars n⟩

/-- Decimal value of a digit list (used to invert `natChars`). -/
def charsVal (l : List Char) : Nat :=
  l.foldl (fun a c => 10 * a + (c.toNat - 48)) 0

/-! ### Code-point string order (Python string comparison) and `sorted`

Python compares strings lexicographically by code point; `sorted` is a stable
sort under that order.  The core `String.lt` decidability instance does not
reduce in the kernel, so the order is embedded directly. -/

/-- Lexicographic code-point order on character lists (Python `<`). -/
def lexLt : List Char → List Char → Bool
  | [], [] => false
  | [], _ :: _ => true
  | _ :: _, [] => false
  | a :: as, b :: bs =>
    if a.toNat < b.toNat then true
    else if b.toNat < a.toNat then false
    else lexLt as bs

/-- Python `a < b` on strings. -/
def strLtB (a b : String) : Bool :=
  lexLt a.data b.data

/-- Stable insertion of a keyed entry into a key-sorted list (strictly-less
goes in front; ties and greater keep scanning), matching the order produced by
Python's stable `sorted` on unique keys. -/
def insertByKey (x : String × α) : List (String × α) → List (String × α)
  | [] => [x]
  | y :: ys => if strLtB x.1 y.1 then x :: y :: ys else y :: insertByKey x ys

/-- Python `sorted(items)` for key/value pairs compared by key (Python compares the
tuples, but the keys here are dict keys, hence unique, so only the first
component is ever compared). -/
def sortByKey (l : List (String × α)) : List (String × α) :=
  l.foldr insertByKey []

/-! ### `file_utils.py` — language codes, base names, translation pairing -/

/-- The `LANGUAGE_CODES` whitelist (a `frozenset` in the source; only
membership is ever used, so a list is an adequate model). -/
def LANGUAGE_CODES : List String :=
  ["EN", "DE", "FR", "NL", "ES", "IT", "PT", "PL", "RU", "JA", "ZH", "KO",
   "AR", "HE", "TR", "CS", "SK", "HU", "RO", "BG", "HR", "SL", "SR", "UK",
   "DA", "NO", "SV", "FI", "EL", "TH", "VI", "ID", "MS", "TL"]

/-- Do two characters spell a whitelisted language code, up to case?
(The regexes match the uppercase code literals under `re.IGNORECASE`; since
all codes are two distinct letters, at most one alternative can match at a
position, so the `frozenset` iteration order is irrelevant.) -/
def isCode (a b : Char) : Bool :=
  LANGUAGE_CODES.contains ⟨[a.toUpper, b.toUpper]⟩

/-- Last non-empty path component (`pathlib.PurePosixPath(...).name`). -/
def pathFinalName (l : List Char) : List Char :=
  (((l.reverse.dropWhile (· = '/')).takeWhile (· ≠ '/'))).reverse

/-- The `pathlib` stem rule: drop the final suffix when the last dot sits strictly
inside the name (`0 < i < len - 1` in the pathlib source). -/
def stemOf (name : List Char) : List Char :=
  match (name.reverse.findIdx? (· = '.')) with
  | none => name
  | some k => if 1 ≤ k ∧ k + 1 < name.length then (name.reverse.drop (k + 1)).reverse else name

/-- Embedding of `Path(filename).stem`. -/
def pathStem (filename : String) : List Char :=
  stemOf (pathFinalName filename.data)

/-- Characters treated as separators by `[\s_\-]` in `find_base_name`. -/
def isSep (c : Char) : Bool :=
  pyIsSpace c || c = '_' || c = '-'

/-- Step 1 of `find_base_name`: `re.sub(r"^[a-z]{2}-[a-z]{2}-?\s*_", "", name, IGNORECASE)`.
Anchored at the start; the optional dash and the `\s*` run are deterministic
because `_` is neither a dash-match nor whitespace. -/
def stripLeadingLocale (l : List Char) : List Char :=
  match l with
  | a :: b :: '-' :: c :: d :: rest =>
    if isAsciiLetter a && isAsciiLetter b && isAsciiLetter c && isAsciiLetter d then
      let rest1 := match rest with
        | '-' :: r => r
        | r => r
      match rest1.dropWhile pyIsSpace with
      | '_' :: r2 => r2
      | _ => l
    else l
  | _ => l

/-- Step 2: `re.sub(r"[_\-\(\[](CODE)[_\-\)\]]", "", name, IGNORECASE)` —
remove every delimited whitelisted code, scanning left to right,
non-overlapping, continuing after each removed match. -/
def removeDelimitedCodes : List Char → List Char
  | [] => []
  | [c] => [c]
  | [c, c2] => [c, c2]
  | [c, c2, c3] => [c, c2, c3]
  | d1 :: a :: b :: d2 :: rest =>
    if (d1 = '_' || d1 = '-' || d1 = '(' || d1 = '[')
        && isCode a b
        && (d2 = '_' || d2 = '-' || d2 = ')' || d2 = ']') then
      removeDelimitedCodes rest
    else d1 :: removeDelimitedCodes (a :: b :: d2 :: rest)

/-- Does the pattern `[\s_\-]*(CODE)[\s_\-]*$` match at this position?
The separator runs are forced maximal (codes are letters, which are not
separators), and the `$` anchor can only be met when the trailing run reaches
the end of the string (a final newline is itself a separator). -/
def trailMatch (t : List Char) : Bool :=
  match t.dropWhile isSep with
  | a :: b :: r => isCode a b && r.all isSep
  | _ => false

/-- Step 3: `re.sub(r"[\s_\-]*(CODE)[\s_\-]*$", "", name, IGNORECASE)` —
the leftmost position where the pattern matches swallows everything to the
end of the string. -/
def removeTrailingCode : List Char → List Char
  | [] => []
  | c :: rest => if trailMatch (c :: rest) then [] else c :: removeTrailingCode rest

/-- Dropping a while-prefix never lengthens a list. -/
theorem dropWhile_length_le (p : α → Bool) : ∀ l : List α, (l.dropWhile p).length ≤ l.length
  | [] => Nat.le_refl _
  | c :: rest => by
    rw [List.dropWhile_cons]
    split
    · exact Nat.le_trans (dropWhile_length_le p rest) (Nat.le_succ _)
    · exact Nat.le_refl _

mutual

/-- Step 4: `re.sub(r"[\s_\-]{2,}", "_", name)` — collapse separator runs of
length at least two into a single underscore (runs of length one are kept). -/
def collapseSeps : List Char → List Char
  | [] => []
  | [c] => [c]
  | c :: c2 :: rest =>
    if isSep c then
      if isSep c2 then '_' :: csSkip rest
      else c :: c2 :: collapseSeps rest
    else c :: collapseSeps (c2 :: rest)

/-- Skip the remainder of a separator run already collapsed to `_`. -/
def csSkip : List Char → List Char
  | [] => []
  | c :: rest => if isSep c then csSkip rest else c :: collapseSeps rest

end

mutual

/-- Step 6: `re.sub(r"-+_", "_", name)` — a maximal dash run followed by an
underscore collapses to the underscore; a run not followed by `_` is kept
verbatim (every shorter tail of the run fails against the same terminator). -/
def dashUnderscore : List Char → List Char
  | [] => []
  | c :: rest => if c = '-' then duRun 1 rest else c :: dashUnderscore rest

/-- Inside a dash run of length `k` so far. -/
def duRun (k : Nat) : List Char → List Char
  | [] => List.replicate k '-'
  | c :: rest =>
    if c = '-' then duRun (k + 1) rest
    else if c = '_' then '_' :: dashUnderscore rest
    else List.replicate k '-' ++ c :: dashUnderscore rest

end

/-- Step 5: `name.strip("_- ")`. -/
def stripEdgeSeps (l : List Char) : List Char :=
  let edge : Char → Bool := fun c => c = '_' || c = '-' || c = ' '
  ((l.dropWhile edge).reverse.dropWhile edge).reverse

/-- Embedding of `find_base_name(filename)` from `file_utils.py`: stem, strip leading
locale, remove delimited codes, remove trailing code, collapse separators,
strip edges, fix dash-underscore combinations, lowercase. -/
def find_base_name (filename : String) : String :=
  ⟨(dashUnderscore (stripEdgeSeps (collapseSeps
      (removeTrailingCode (removeDelimitedCodes
        (stripLeadingLocale (pathStem filename))))))).map Char.toLower⟩

/-- The candidate loop of `find_translation_pair` (candidates are
`(filename, language, base_name)` triples). -/
def ftpGo (my_base language : String) : List (String × String × String) → Option String
  | [] => none
  | (cand_filename, cand_lang, cand_base) :: rest =>
    if cand_lang = language then ftpGo my_base language rest
    else if my_base ≠ "" ∧ cand_base ≠ "" ∧ my_base = cand_base then some cand_filename
    else ftpGo my_base language rest

/-- Embedding of `find_translation_pair(filename, language, candidates, file_contents)`
from `file_utils.py`.  (`file_contents` is accepted and ignored, exactly as in
the source.) -/
def find_translation_pair (filename language : String)
    (candidates : List (String × String × String))
    (file_contents : List (String × String)) : Option String :=
  let my_base := find_base_name filename
  ftpGo my_base language candidates

/-- Modelled from the spec's words (for comparison with the implementation):
"returns the first candidate whose language differs from the source's AND
whose base_name exactly equals the source's base_name". -/
def find_translation_pair_specVersion (filename language : String)
    (candidates : List (String × String × String))
    (_file_contents : List (String × String)) : Option String :=
  (candidates.find? (fun c => !(c.2.1 == language) && (c.2.2 == find_base_name filename))).map (·.1)

/-! ### `models.py` — the document data model and its derived views -/

/-- The `Document` dataclass from `models.py`. -/
structure Document where
  filename : String
  content : String
  language : String
  pair_id : Option String := none
  tokens : Nat := 0
deriving DecidableEq, Repr

/-- The `Document.is_paired` property. -/
def Document.is_paired (d : Document) : Bool :=
  d.pair_id.isSome && d.pair_id ≠ some "-"

/-- The `DocumentPair` dataclass from `models.py`. -/
structure DocumentPair where
  pair_id : String
  source : Document
  target : Document
deriving DecidableEq, Repr

/-- The `ExtractionResult` dataclass from `models.py`. -/
structure ExtractionResult where
  client_rules : String
  guidelines : String
  input_tokens : Nat
  output_tokens : Nat
deriving DecidableEq, Repr

/-- The `DocumentSet` dataclass from `models.py`. -/
structure DocumentSet where
  client_name : String
  subtype : String
  documents : List Document := []
  total_tokens : Nat := 0
deriving DecidableEq, Repr

/-- The source-role test of `DocumentSet.paired_documents`:
`doc.language.upper() in ("EN", "EN-GB", "EN-US", "EN-WW")`. -/
def isSourceLang (language : String) : Bool :=
  let u : String := ⟨language.data.map Char.toUpper⟩
  u = "EN" || u = "EN-GB" || u = "EN-US" || u = "EN-WW"

/-- Modelled from the spec's words (for comparison with the implementation):
"English variant" means the code starts with `"EN"` case-insensitively. -/
def specIsEnglishVariant (language : String) : Bool :=
  startsWithCI "EN".data language.data

/-- One `pairs[pair_id]` slot pair: (`"source"` entry, `"target"` entry). -/
abbrev PairSlots := Option Document × Option Document

/-- Writing a document into its role slot (later writes overwrite). -/
def setSlot (e : PairSlots) (d : Document) : PairSlots :=
  if isSourceLang d.language then (some d, e.2) else (e.1, some d)

/-- Update the slot table at a pair id, inserting a fresh entry at the end
when the id is new (Python dicts append new keys in insertion order). -/
def updSlot : List (String × PairSlots) → String → Document → List (String × PairSlots)
  | [], pid, d => [(pid, setSlot (none, none) d)]
  | (k, e) :: rest, pid, d =>
    if k = pid then (k, setSlot e d) :: rest else (k, e) :: updSlot rest pid d

/-- One iteration of the `for doc in self.documents` loop of
`paired_documents`. -/
def addDoc (st : List (String × PairSlots)) (d : Document) : List (String × PairSlots) :=
  match d.pair_id with
  | none => st
  | some pid => if d.is_paired then updSlot st pid d else st

/-- The `pairs` dict built by `paired_documents`. -/
def buildPairs (docs : List Document) : List (String × PairSlots) :=
  docs.foldl addDoc []

/-- A slot entry materializes as a `DocumentPair` exactly when both the
source and the target slot are filled. -/
def slotsToPair (e : String × PairSlots) : Option DocumentPair :=
  match e.2.1, e.2.2 with
  | some s, some t => some ⟨e.1, s, t⟩
  | _, _ => none

/-- Embedding of `DocumentSet.paired_documents`: group by pair id, sort by pair id
(Python string order), keep only groups holding both a source and a target. -/
def DocumentSet.paired_documents (ds : DocumentSet) : List DocumentPair :=
  (sortByKey (buildPairs ds.documents)).filterMap slotsToPair

/-- The `paired_filenames` set of `DocumentSet.unpaired_documents`
(only membership is used, so a list models the Python `set`). -/
def pairedFilenames (ds : DocumentSet) : List String :=
  ds.paired_documents.foldr (fun pr acc => pr.source.filename :: pr.target.filename :: acc) []

/-- Embedding of `DocumentSet.unpaired_documents`. -/
def DocumentSet.unpaired_documents (ds : DocumentSet) : List Document :=
  ds.documents.filter (fun d => !(pairedFilenames ds).contains d.filename)

/-! ### `gui/data_manager.py` — the full-set pairing algorithm `find_pairs` -/

/-- One row of the GUI dataframe (only the columns `find_pairs` reads). -/
structure FileRow where
  filename : String
  language : String
deriving DecidableEq, Repr

/-- The candidate filter of `find_pairs`: unprocessed, a different file, a
different language, and not `"UNKNOWN"`. -/
def candidateFilter (processed : List String) (r : FileRow) (c : FileRow) : Bool :=
  !(processed.contains c.filename) && c.filename != r.filename
    && c.language != r.language && c.language != "UNKNOWN"

/-- The row loop of `find_pairs`.  `all` is the full table (candidates are
drawn from it); the `Pair #` column writes are modelled as an association
list from filename to pair id, which matches the dataframe updates whenever
filenames are pairwise distinct. -/
def findPairsAux (all : List FileRow) (file_data : List (String × String)) :
    List FileRow → List String → List (String × String) → Nat → List (String × String)
  | [], _, assigned, _ => assigned
  | r :: rest, processed, assigned, counter =>
    if processed.contains r.filename then
      findPairsAux all file_data rest processed assigned counter
    else if r.language = "UNKNOWN" then
      findPairsAux all file_data rest (r.filename :: processed) ((r.filename, "-") :: assigned) counter
    else
      let candidateRows := all.filter (candidateFilter processed r)
      if candidateRows.isEmpty then
        findPairsAux all file_data rest (r.filename :: processed) ((r.filename, "-") :: assigned) counter
      else
        let candidates := candidateRows.map (fun c => (c.filename, c.language, find_base_name c.filename))
        match find_translation_pair r.filename r.language candidates file_data with
        | some m =>
          findPairsAux all file_data rest (m :: r.filename :: processed)
            ((m, natToStr counter) :: (r.filename, natToStr counter) :: assigned) (counter + 1)
        | none =>
          findPairsAux all file_data rest (r.filename :: processed) ((r.filename, "-") :: assigned) counter

/-- Embedding of `find_pairs(df, file_data)`: every row paired with its final `Pair #`
value (rows never written keep the initial sentinel `"-"`; the loop in fact
writes every row). -/
def find_pairs (rows : List FileRow) (file_data : List (String × String)) : List (FileRow × String) :=
  let assigned := findPairsAux rows file_data rows [] [] 1
  rows.map (fun r => (r, (assigned.lookup r.filename).getD "-"))

/-! ### `extractor.py` — response parsing (single and batch) -/

/-- Matcher for `(### CLIENT_RULES|## CLIENT_RULES)\s*```javascript\s*(.*?)```
at one position (`re.DOTALL | re.IGNORECASE`).  Both `\s*` runs are maximal
(each is followed by a non-whitespace requirement or by a lazy group that can
absorb anything), and the lazy group stops at the first closing fence; if no
fence follows, the match fails at this position. -/
def matchClientRulesAt (head : List Char) (s : List Char) : Option (List Char) := do
  let r0 ← stripPrefixCI head s
  let r1 := r0.dropWhile pyIsSpace
  let r2 ← stripPrefixCI "```javascript".data r1
  let r3 := r2.dropWhile pyIsSpace
  let pr ← scanPosO (fun t => if "```".data.isPrefixOf t then some () else none) r3
  return pr.1

/-- The lookahead `(?=\n##[# ]|$)` of the single-mode GUIDELINES pattern
(`$` without `re.MULTILINE`: end of text, or just before a final newline). -/
def lookSingleG (t : List Char) : Bool :=
  ("\n###".data).isPrefixOf t || ("\n## ".data).isPrefixOf t || t.isEmpty || t = ['\n']

/-- Pattern `###? GUIDELINES` at one position (`###` preferred, then `##`). -/
def guidelinesHeadAt (t : List Char) : Option (List Char) :=
  match stripPrefixCI "### GUIDELINES".data t with
  | some r => some r
  | none => stripPrefixCI "## GUIDELINES".data t

/-- Matcher for `###? GUIDELINES\s*(.*?)(?=\n##[# ]|$)` at one position. -/
def matchGuidelinesAt (s : List Char) : Option (List Char) := do
  let r0 ← guidelinesHeadAt s
  let r1 := r0.dropWhile pyIsSpace
  let pr ← scanPosO (fun t => if lookSingleG t then some () else none) r1
  return pr.1

/-- The (dead in practice) fallback branch of `_parse_response`: split on the
first `###? GUIDELINES` occurrence and take the text up to the next
occurrence or the end (`re.split(...)[1]`). -/
def guidelinesFallback (s : List Char) : List Char :=
  match scanPosO guidelinesHeadAt s with
  | none => []
  | some pr =>
    match scanPosO (fun t => if (guidelinesHeadAt t).isSome then some () else none) pr.2 with
    | some pr2 => pr2.1
    | none => pr.2

/-- Embedding of `_parse_response(response_text)` from `extractor.py`. -/
def parse_response (response_text : String) : String × String :=
  let s := response_text.data
  let crCap : Option (List Char) :=
    match scanPosO (matchClientRulesAt "### CLIENT_RULES".data) s with
    | some pr => some pr.2
    | none =>
      match scanPosO (matchClientRulesAt "## CLIENT_RULES".data) s with
      | some pr => some pr.2
      | none => none
  let client_rules : String :=
    match crCap with
    | some cap => pyStrip ⟨cap⟩
    | none => ""
  let guidelines : String :=
    match scanPosO matchGuidelinesAt s with
    | some pr => pyStrip ⟨pr.2⟩
    | none =>
      if containsSub "GUIDELINES".data (s.map Char.toUpper) then
        match scanPosO guidelinesHeadAt s with
        | some _ => pyStrip ⟨guidelinesFallback s⟩
        | none => ""
      else ""
  (client_rules, guidelines)

/-- A greedy whitespace run followed by a literal (the escaped subtype name after the SUBTYPE heading):
the greedy whitespace run backtracks from its maximal length until the
literal matches. -/
def wsLitGo (lit : List Char) (s : List Char) : Nat → Option (List Char)
  | 0 => stripPrefixCI lit s
  | k + 1 =>
    match stripPrefixCI lit (s.drop (k + 1)) with
    | some r => some r
    | none => wsLitGo lit s k

/-- See `wsLitGo`: greedy `\s*` then a literal, with backtracking from the
maximal whitespace run down. -/
def wsThenLitCI (lit : List Char) (s : List Char) : Option (List Char) :=
  wsLitGo lit s ((s.takeWhile pyIsSpace).length)

/-- The lookahead `(?=\n## SUBTYPE:|$)`. -/
def lookSubtype (t : List Char) : Bool :=
  startsWithCI "\n## SUBTYPE:".data t || t.isEmpty || t = ['\n']

/-- Matcher for `## SUBTYPE:\s*{name}\s*(.*?)(?=\n## SUBTYPE:|$)` at one
position. -/
def matchSubtypeAt (sub : List Char) (s : List Char) : Option (List Char) := do
  let r0 ← stripPrefixCI "## SUBTYPE:".data s
  let r1 ← wsThenLitCI sub r0
  let r2 := r1.dropWhile pyIsSpace
  let pr ← scanPosO (fun t => if lookSubtype t then some () else none) r2
  return pr.1

/-- Leftmost search for a subtype's block in the batch response. -/
def searchSubtypeSection (sub : List Char) (s : List Char) : Option (List Char) :=
  (scanPosO (matchSubtypeAt sub) s).map (·.2)

/-- The lookahead `(?=\n### [A-Z]|\n## SUBTYPE:|$)` of the batch GUIDELINES
pattern (under `re.IGNORECASE`, `[A-Z]` also matches lowercase letters). -/
def lookBatchG (t : List Char) : Bool :=
  (match t with
   | '\n' :: '#' :: '#' :: '#' :: ' ' :: c :: _ => isAsciiLetter c
   | _ => false)
  || startsWithCI "\n## SUBTYPE:".data t || t.isEmpty || t = ['\n']

/-- Matcher for `### GUIDELINES\s*(.*?)(?=\n### [A-Z]|\n## SUBTYPE:|$)`. -/
def matchBatchGuidelinesAt (s : List Char) : Option (List Char) := do
  let r0 ← stripPrefixCI "### GUIDELINES".data s
  let r1 := r0.dropWhile pyIsSpace
  let pr ← scanPosO (fun t => if lookBatchG t then some () else none) r1
  return pr.1

/-- The (dead in practice) fallback split of the batch GUIDELINES branch. -/
def batchGuidelinesFallback (s : List Char) : List Char :=
  match scanPosO (stripPrefixCI "### GUIDELINES".data) s with
  | none => []
  | some pr =>
    match scanPosO (fun t => if startsWithCI "### GUIDELINES".data t then some () else none) pr.2 with
    | some pr2 => pr2.1
    | none => pr.2

/-- The per-subtype body of `_parse_batch_response`: locate the subtype's
block; a missing block yields the empty-content result, otherwise the block
is parsed with the batch CLIENT_RULES/GUIDELINES extraction. -/
def parseBatchSubtype (response_text : String) (sub : String) : ExtractionResult :=
  match searchSubtypeSection sub.data response_text.data with
  | none => ⟨"", "", 0, 0⟩
  | some block =>
    let client_rules : String :=
      match scanPosO (matchClientRulesAt "### CLIENT_RULES".data) block with
      | some pr => pyStrip ⟨pr.2⟩
      | none => ""
    let guidelines : String :=
      match scanPosO matchBatchGuidelinesAt block with
      | some pr => pyStrip ⟨pr.2⟩
      | none =>
        if containsSub "### GUIDELINES".data (block.map Char.toUpper) then
          pyStrip ⟨batchGuidelinesFallback block⟩
        else ""
    ⟨client_rules, guidelines, 0, 0⟩

/-- Embedding of `_parse_batch_response(response_text, document_sets)`: one entry per
document set, in order (the Python dict keyed by subtype name agrees with
this ordered list when subtype names are pairwise distinct). -/
def parse_batch (response_text : String) (document_sets : List DocumentSet) :
    List (String × ExtractionResult) :=
  document_sets.map (fun ds => (ds.subtype, parseBatchSubtype response_text ds.subtype))

/-- The usage-distribution loop at the end of
`extract_rules_and_guidelines_batch`: every parsed result is rebuilt with
`input_tokens = usage.input_tokens // n` and
`output_tokens = usage.output_tokens // n` where `n = len(document_sets)`. -/
def attachBatchUsage (results : List (String × ExtractionResult))
    (input_tokens output_tokens n : Nat) : List (String × ExtractionResult) :=
  results.map (fun e =>
    (e.1, { e.2 with input_tokens := input_tokens / n, output_tokens := output_tokens / n }))

/-- The post-call path of `extract_rules_and_guidelines_batch`: parse the
batch response, then distribute the reported usage evenly. -/
def extract_batch_results (response_text : String) (document_sets : List DocumentSet)
    (usage_input usage_output : Nat) : List (String × ExtractionResult) :=
  attachBatchUsage (parse_batch response_text document_sets)
    usage_input usage_output document_sets.length

/-! ### `cost_estimator.py` — cost estimation (floats modelled as ℚ) -/

/-- The `PRICING` table: dollars per million tokens, `(input, output)`. -/
def PRICING : List (String × ℚ × ℚ) :=
  [("claude-opus-4-5-20251101", (5, 25)),
   ("claude-sonnet-4-5", (3, 15)),
   ("claude-sonnet-4-20250514", (3, 15))]

/-- Lookup `PRICING.get(model, PRICING["claude-opus-4-5-20251101"])`. -/
def lookupPricing (model : String) : ℚ × ℚ :=
  match PRICING.lookup model with
  | some p => p
  | none => (5, 25)

/-- The raw cost before rounding:
`input_tokens/1e6 * input_price + output_tokens/1e6 * output_price`. -/
def rawCost (input_tokens output_tokens : Nat) (model : String) : ℚ :=
  (input_tokens : ℚ) / 1000000 * (lookupPricing model).1
    + (output_tokens : ℚ) / 1000000 * (lookupPricing model).2

/-- Embedding of `estimate_cost(input_tokens, estimated_output_tokens, model, round_to_nickel)`:
`math.ceil(total_cost / 0.05) * 0.05` when rounding to a nickel. -/
def estimate_cost (input_tokens output_tokens : Nat) (model : String)
    (round_to_nickel : Bool) : ℚ :=
  let total := rawCost input_tokens output_tokens model
  if round_to_nickel then (⌈total / (5 / 100)⌉ : ℚ) * (5 / 100) else total

/-- Helper for the trailing `$`-lookahead: drop a single final newline (and
nothing else) from a character list. -/
def dropFinalNl : List Char → List Char
  | [] => []
  | c :: cs => if c = '\n' ∧ cs = [] then [] else c :: dropFinalNl cs

/-! ## Helper lemmas -/

/-! ### Decimal rendering -/

/-- Digit characters decode back to their value. -/
theorem toNat_digitChar (d : Nat) (h : d < 10) : (Char.ofNat (48 + d)).toNat = 48 + d := by
  interval_cases d <;> decide

/-- Appending one character to a digit string multiplies its value by ten. -/
theorem charsVal_append_digit (a : List Char) (c : Char) :
    charsVal (a ++ [c]) = 10 * charsVal a + (c.toNat - 48) := by
  simp [charsVal, List.foldl_append]

/-- Decoding inverts `natChars`. -/
theorem charsVal_natChars : ∀ n : Nat, charsVal (natChars n) = n := by
  intro n
  induction n using Nat.strong_induction_on with
  | _ n ih =>
    rw [natChars]
    by_cases h : n < 10
    · simp only [h, dite_true]
      simp [charsVal, toNat_digitChar n h]
    · simp only [h, dite_false]
      rw [charsVal_append_digit, ih (n / 10) (Nat.div_lt_self (by omega) (by omega)),
        toNat_digitChar (n % 10) (Nat.mod_lt _ (by omega))]
      omega

/-- Python's decimal rendering of naturals is injective. -/
theorem natToStr_inj {m n : Nat} (h : natToStr m = natToStr n) : m = n := by
  have hd : natChars m = natChars n := congrArg String.data h
  have := charsVal_natChars m
  rw [hd, charsVal_natChars] at this
  exact this.symm

/-- Rendered pair ids are never the sentinel `"-"`. -/
theorem natToStr_ne_dash (n : Nat) : natToStr n ≠ "-" := by
  intro h
  have hd : natChars n = ['-'] := congrArg String.data h
  have hv := charsVal_natChars n
  rw [hd] at hv
  have : n = 0 := by simpa [charsVal] using hv.symm
  subst this
  rw [natChars] at hd
  simp at hd

/-! ### Association-list lookup -/

/-- A successful lookup names an entry of the list. -/
theorem lookup_mem {β : Type} {a : String} {b : β} :
    ∀ {l : List (String × β)}, List.lookup a l = some b → (a, b) ∈ l
  | [], h => by simp [List.lookup] at h
  | (k, v) :: rest, h => by
    cases hk : a == k with
    | true =>
      simp only [List.lookup, hk] at h
      cases h
      simp [eq_of_beq hk]
    | false =>
      simp only [List.lookup, hk] at h
      exact List.mem_cons_of_mem _ (lookup_mem h)

/-- With pairwise-distinct keys, membership determines the lookup. -/
theorem lookup_eq_of_mem_nodup {β : Type} {a : String} {b : β} :
    ∀ {l : List (String × β)}, (a, b) ∈ l → (l.map Prod.fst).Nodup →
      List.lookup a l = some b
  | [], h, _ => by simp at h
  | (k, v) :: rest, h, hnd => by
    rw [List.map_cons, List.nodup_cons] at hnd
    rcases List.mem_cons.mp h with h1 | h1
    · cases h1
      simp [List.lookup]
    · have hak : a ≠ k := by
        intro he
        subst he
        exact hnd.1 (List.mem_map.mpr ⟨(a, b), h1, rfl⟩)
      have hbk : (a == k) = false := by simpa using hak
      simp only [List.lookup, hbk]
      exact lookup_eq_of_mem_nodup h1 hnd.2

/-- A failed lookup means the key is absent. -/
theorem lookup_none_not_mem {β : Type} {a : String} :
    ∀ {l : List (String × β)}, List.lookup a l = none → ∀ b, (a, b) ∉ l
  | [], _, b => by simp
  | (k, v) :: rest, h, b => by
    cases hk : a == k with
    | true => simp [List.lookup, hk] at h
    | false =>
      simp only [List.lookup, hk] at h
      intro hmem
      rcases List.mem_cons.mp hmem with h1 | h1
      · cases h1
        simp at hk
      · exact lookup_none_not_mem h b h1

/-! ### The code-point order and the stable sort -/

/-- Lexicographic code-point order is asymmetric. -/
theorem lexLt_asymm : ∀ {a b : List Char}, lexLt a b = true → lexLt b a = false
  | [], [], h => by simp [lexLt] at h
  | [], _ :: _, _ => by simp [lexLt]
  | _ :: _, [], h => by simp [lexLt] at h
  | a :: as, b :: bs, h => by
    rw [lexLt] at h ⊢
    by_cases h1 : a.toNat < b.toNat
    · rw [if_neg (by omega), if_pos h1]
    · rw [if_neg h1] at h
      by_cases h2 : b.toNat < a.toNat
      · rw [if_pos h2] at h
        cases h
      · rw [if_neg h2] at h
        rw [if_neg h2, if_neg h1]
        exact lexLt_asymm h

/-- Lexicographic code-point order is transitive. -/
theorem lexLt_trans : ∀ {a b c : List Char},
    lexLt a b = true → lexLt b c = true → lexLt a c = true
  | [], [], _, h, _ => by simp [lexLt] at h
  | [], _ :: _, [], _, h => by simp [lexLt] at h
  | [], _ :: _, _ :: _, _, _ => by simp [lexLt]
  | _ :: _, [], _, h, _ => by simp [lexLt] at h
  | _ :: _, _ :: _, [], _, h => by simp [lexLt] at h
  | a :: as, b :: bs, c :: cs, h1, h2 => by
    rw [lexLt] at h1 h2 ⊢
    by_cases hab : a.toNat < b.toNat
    · by_cases hbc : b.toNat < c.toNat
      · rw [if_pos (by omega)]
      · rw [if_neg hbc] at h2
        by_cases hcb : c.toNat < b.toNat
        · rw [if_pos hcb] at h2
          cases h2
        · have : b.toNat = c.toNat := by omega
          rw [if_pos (by omega)]
    · rw [if_neg hab] at h1
      by_cases hba : b.toNat < a.toNat
      · rw [if_pos hba] at h1
        cases h1
      · rw [if_neg hba] at h1
        have hab' : a.toNat = b.toNat := by omega
        by_cases hbc : b.toNat < c.toNat
        · rw [if_pos (by omega)]
        · rw [if_neg hbc] at h2
          by_cases hcb : c.toNat < b.toNat
          · rw [if_pos hcb] at h2
            cases h2
          · rw [if_neg hcb] at h2
            rw [if_neg (by omega), if_neg (by omega)]
            exact lexLt_trans h1 h2

/-- Members of an insertion. -/
theorem mem_insertByKey {α : Type} {x y : String × α} :
    ∀ {l : List (String × α)}, x ∈ insertByKey y l ↔ x = y ∨ x ∈ l
  | [] => by simp [insertByKey]
  | z :: zs => by
    rw [insertByKey]
    by_cases h : strLtB y.1 z.1
    · rw [if_pos h]
      simp [List.mem_cons]
    · rw [if_neg h]
      simp only [List.mem_cons, mem_insertByKey]
      tauto

/-- Insertion permutes the cons. -/
theorem perm_insertByKey {α : Type} (y : String × α) :
    ∀ (l : List (String × α)), (insertByKey y l).Perm (y :: l)
  | [] => by simp [insertByKey]
  | z :: zs => by
    rw [insertByKey]
    by_cases h : strLtB y.1 z.1
    · rw [if_pos h]
    · rw [if_neg h]
      exact ((perm_insertByKey y zs).cons z).trans (List.Perm.swap _ _ _)

/-- Sorting permutes the input. -/
theorem perm_sortByKey {α : Type} : ∀ (l : List (String × α)), (sortByKey l).Perm l
  | [] => List.Perm.refl _
  | x :: xs =>
    (perm_insertByKey x (sortByKey xs)).trans ((perm_sortByKey xs).cons x)

/-- Insertion preserves non-descending key order. -/
theorem pairwise_insertByKey {α : Type} {y : String × α} :
    ∀ {l : List (String × α)},
      l.Pairwise (fun a b => strLtB b.1 a.1 = false) →
      (insertByKey y l).Pairwise (fun a b => strLtB b.1 a.1 = false)
  | [], _ => by simp [insertByKey]
  | z :: zs, h => by
    rw [List.pairwise_cons] at h
    rw [insertByKey]
    by_cases hyz : strLtB y.1 z.1
    · rw [if_pos hyz]
      refine List.Pairwise.cons ?_ (List.Pairwise.cons h.1 h.2)
      intro w hw
      rcases List.mem_cons.mp hw with rfl | hw2
      · exact lexLt_asymm hyz
      · by_contra hcon
        have hwy : lexLt w.1.data y.1.data = true := by
          cases hxy : strLtB w.1 y.1
          · exact absurd hxy hcon
          · exact hxy
        have : strLtB w.1 z.1 = true := lexLt_trans hwy hyz
        rw [h.1 w hw2] at this
        cases this
    · rw [if_neg hyz]
      refine List.Pairwise.cons ?_ (pairwise_insertByKey h.2)
      intro w hw
      rcases mem_insertByKey.mp hw with rfl | hw2
      · simpa using hyz
      · exact h.1 w hw2

/-- The sorted view is non-descending in the Python string order. -/
theorem pairwise_sortByKey {α : Type} :
    ∀ (l : List (String × α)), (sortByKey l).Pairwise (fun a b => strLtB b.1 a.1 = false)
  | [] => List.Pairwise.nil
  | x :: xs => pairwise_insertByKey (pairwise_sortByKey xs)

/-! ### The candidate loop of `find_translation_pair` -/

/-- The candidate loop returns exactly the first candidate with a different
language and a non-empty base name equal to the (non-empty) query base name. -/
theorem ftpGo_eq_find? (mb l : String) :
    ∀ cs : List (String × String × String),
      ftpGo mb l cs =
        (cs.find? (fun c =>
          !(c.2.1 == l) && !(mb == "") && !(c.2.2 == "") && (mb == c.2.2))).map (·.1)
  | [] => rfl
  | (f, lg, b) :: rest => by
    rw [ftpGo]
    by_cases h1 : lg = l
    · rw [if_pos h1]
      rw [List.find?_cons_of_neg _ (by simp [h1])]
      exact ftpGo_eq_find? mb l rest
    · rw [if_neg h1]
      by_cases h2 : mb ≠ "" ∧ b ≠ "" ∧ mb = b
      · rw [if_pos h2]
        rw [List.find?_cons_of_pos _ (by simp [h1, h2.1, h2.2.1, h2.2.2])]
        rfl
      · rw [if_neg h2]
        rw [List.find?_cons_of_neg _ (by
          simp only [Bool.and_eq_true, bne, Bool.not_eq_true', beq_eq_false_iff_ne,
            ne_eq, beq_iff_eq, Bool.not_eq_true]
          rintro ⟨⟨⟨hl, hmb⟩, hb⟩, heq⟩
          exact h2 ⟨by simpa using hmb, by simpa using hb, heq⟩)]
        exact ftpGo_eq_find? mb l rest

/-- A successful candidate search names a listed candidate whose language
differs from the query's. -/
theorem ftpGo_some (mb l : String) {cs : List (String × String × String)} {fn : String}
    (h : ftpGo mb l cs = some fn) : ∃ c ∈ cs, c.1 = fn ∧ c.2.1 ≠ l := by
  rw [ftpGo_eq_find?] at h
  rcases hfind : cs.find? (fun c =>
      !(c.2.1 == l) && !(mb == "") && !(c.2.2 == "") && (mb == c.2.2)) with _ | c
  · rw [hfind] at h
    cases h
  · rw [hfind] at h
    cases h
    have hp := List.find?_some hfind
    have hm := List.mem_of_find?_eq_some hfind
    simp only [Bool.and_eq_true, Bool.not_eq_true', beq_eq_false_iff_ne, ne_eq] at hp
    exact ⟨c, hm, rfl, hp.1.1.1⟩

/-! ### The `pairs` slot table of `paired_documents` -/

/-- Entries with other keys survive an update. -/
theorem mem_updSlot_of_ne {pid : String} {d : Document} {e : String × PairSlots} :
    ∀ {st : List (String × PairSlots)}, e ∈ st → e.1 ≠ pid → e ∈ updSlot st pid d
  | [], he, _ => by simp at he
  | (k, v) :: rest, he, hne => by
    rw [updSlot]
    by_cases hk : k = pid
    · rw [if_pos hk]
      rcases List.mem_cons.mp he with rfl | h1
      · exact absurd hk hne
      · exact List.mem_cons_of_mem _ h1
    · rw [if_neg hk]
      rcases List.mem_cons.mp he with rfl | h1
      · exact List.mem_cons_self _ _
      · exact List.mem_cons_of_mem _ (mem_updSlot_of_ne h1 hne)

/-- Entries with other keys in an updated table come from the old table. -/
theorem mem_of_mem_updSlot_ne {pid : String} {d : Document} {e : String × PairSlots} :
    ∀ {st : List (String × PairSlots)}, e ∈ updSlot st pid d → e.1 ≠ pid → e ∈ st
  | [], he, hne => by
    rw [updSlot] at he
    rcases List.mem_singleton.mp he with rfl
    exact absurd rfl hne
  | (k, v) :: rest, he, hne => by
    rw [updSlot] at he
    by_cases hk : k = pid
    · rw [if_pos hk] at he
      rcases List.mem_cons.mp he with rfl | h1
      · exact absurd hk hne
      · exact List.mem_cons_of_mem _ h1
    · rw [if_neg hk] at he
      rcases List.mem_cons.mp he with rfl | h1
      · exact List.mem_cons_self _ _
      · exact List.mem_cons_of_mem _ (mem_of_mem_updSlot_ne h1 hne)

/-- An update at an existing key keeps the key list. -/
theorem updSlot_keys_mem {pid : String} {d : Document} :
    ∀ {st : List (String × PairSlots)}, pid ∈ st.map Prod.fst →
      (updSlot st pid d).map Prod.fst = st.map Prod.fst
  | [], h => by simp at h
  | (k, v) :: rest, h => by
    rw [updSlot]
    by_cases hk : k = pid
    · rw [if_pos hk]
      simp
    · rw [if_neg hk]
      have h1 : pid ∈ rest.map Prod.fst := by
        rcases List.mem_cons.mp h with h2 | h2
        · exact absurd h2.symm hk
        · exact h2
      simp [updSlot_keys_mem h1]

/-- An update at a fresh key appends it. -/
theorem updSlot_keys_new {pid : String} {d : Document} :
    ∀ {st : List (String × PairSlots)}, pid ∉ st.map Prod.fst →
      (updSlot st pid d).map Prod.fst = st.map Prod.fst ++ [pid]
  | [], _ => by simp [updSlot]
  | (k, v) :: rest, h => by
    rw [updSlot]
    have hk : k ≠ pid := by
      intro hkp
      exact h (by simp [hkp])
    rw [if_neg hk]
    have h1 : pid ∉ rest.map Prod.fst := fun h2 => h (by simp [h2])
    simp [updSlot_keys_new h1]

/-- Updates preserve distinctness of keys. -/
theorem updSlot_keys_nodup {pid : String} {d : Document} {st : List (String × PairSlots)}
    (h : (st.map Prod.fst).Nodup) : ((updSlot st pid d).map Prod.fst).Nodup := by
  by_cases hm : pid ∈ st.map Prod.fst
  · rw [updSlot_keys_mem hm]
    exact h
  · rw [updSlot_keys_new hm]
    simp [List.nodup_append, h, hm]

/-- With distinct keys, a key determines its slots. -/
theorem entry_unique {β : Type} {pid : String} {v w : β} {st : List (String × β)}
    (hnd : (st.map Prod.fst).Nodup) (hv : (pid, v) ∈ st) (hw : (pid, w) ∈ st) : v = w := by
  have h1 := lookup_eq_of_mem_nodup hv hnd
  have h2 := lookup_eq_of_mem_nodup hw hnd
  rw [h1] at h2
  cases h2
  rfl

/-- An update at a key rewrites exactly that key's slots through `setSlot`,
starting from `(none, none)` when the key is fresh. -/
theorem updSlot_self {pid : String} {d : Document} :
    ∀ {st : List (String × PairSlots)}, (st.map Prod.fst).Nodup →
      ∃ old : PairSlots, (pid, setSlot old d) ∈ updSlot st pid d
        ∧ ((pid, old) ∈ st ∨ (old = (none, none) ∧ pid ∉ st.map Prod.fst))
        ∧ ∀ v : PairSlots, (pid, v) ∈ updSlot st pid d → v = setSlot old d
  | [], _ => by
    refine ⟨(none, none), by simp [updSlot], Or.inr ⟨rfl, by simp⟩, ?_⟩
    intro v hv
    rw [updSlot] at hv
    rcases List.mem_singleton.mp hv with h
    cases h
    rfl
  | (k, e) :: rest, hnd => by
    rw [List.map_cons, List.nodup_cons] at hnd
    rw [updSlot]
    by_cases hk : k = pid
    · subst hk
      rw [if_pos rfl]
      refine ⟨e, List.mem_cons_self _ _, Or.inl (List.mem_cons_self _ _), ?_⟩
      intro v hv
      rcases List.mem_cons.mp hv with h1 | h1
      · cases h1
        rfl
      · exact absurd (List.mem_map.mpr ⟨(k, v), h1, rfl⟩) hnd.1
    · rw [if_neg hk]
      obtain ⟨old, hmem, hsrc, huniq⟩ := @updSlot_self pid d rest hnd.2
      refine ⟨old, List.mem_cons_of_mem _ hmem, ?_, ?_⟩
      · rcases hsrc with h1 | h1
        · exact Or.inl (List.mem_cons_of_mem _ h1)
        · refine Or.inr ⟨h1.1, ?_⟩
          simp only [List.map_cons, List.mem_cons]
          rintro (h2 | h2)
          · exact hk h2.symm
          · exact h1.2 h2
      · intro v hv
        rcases List.mem_cons.mp hv with h1 | h1
        · cases h1
          exact absurd rfl hk
        · exact huniq v h1

/-- Per-entry invariant of the `pairs` dict: the key is a real pair id and
each filled slot holds a document of the set carrying that pair id, in the
role prescribed by its language. -/
def SlotEntryOK (docs : List Document) (e : String × PairSlots) : Prop :=
  e.1 ≠ "-"
    ∧ (e.2.1.isSome ∨ e.2.2.isSome)
    ∧ (∀ a : Document, e.2.1 = some a →
        a ∈ docs ∧ a.pair_id = some e.1 ∧ isSourceLang a.language = true)
    ∧ (∀ b : Document, e.2.2 = some b →
        b ∈ docs ∧ b.pair_id = some e.1 ∧ isSourceLang b.language = false)

/-- Global invariant of the `pairs` dict after processing `docs`. -/
def SlotsInv (docs : List Document) (st : List (String × PairSlots)) : Prop :=
  (st.map Prod.fst).Nodup
    ∧ (∀ e ∈ st, SlotEntryOK docs e)
    ∧ (∀ pid : String, (∃ e ∈ st, e.1 = pid ∧ e.2.1.isSome) ↔
        ∃ d ∈ docs, d.pair_id = some pid ∧ pid ≠ "-" ∧ isSourceLang d.language = true)
    ∧ (∀ pid : String, (∃ e ∈ st, e.1 = pid ∧ e.2.2.isSome) ↔
        ∃ d ∈ docs, d.pair_id = some pid ∧ pid ≠ "-" ∧ isSourceLang d.language = false)

/-- Key-filtered existence over an update, at a different key. -/
theorem exists_key_updSlot_ne {pid q : String} {d : Document} {st : List (String × PairSlots)}
    (hq : q ≠ pid) (p : String × PairSlots → Prop) :
    (∃ e ∈ updSlot st pid d, e.1 = q ∧ p e) ↔ (∃ e ∈ st, e.1 = q ∧ p e) := by
  constructor
  · rintro ⟨e, he, rfl, hp⟩
    exact ⟨e, mem_of_mem_updSlot_ne he hq, rfl, hp⟩
  · rintro ⟨e, he, rfl, hp⟩
    exact ⟨e, mem_updSlot_of_ne he hq, rfl, hp⟩

/-- Key-filtered existence over the old table, when the key has an entry. -/
theorem exists_key_st_of_mem {pid : String} {old : PairSlots} {st : List (String × PairSlots)}
    (hnd : (st.map Prod.fst).Nodup) (hold : (pid, old) ∈ st) (p : String × PairSlots → Prop) :
    (∃ e ∈ st, e.1 = pid ∧ p e) ↔ p (pid, old) := by
  constructor
  · rintro ⟨⟨k, v⟩, he, rfl, hp⟩
    rwa [entry_unique hnd he hold] at hp
  · intro hp
    exact ⟨(pid, old), hold, rfl, hp⟩

/-- Key-filtered existence fails for a key with no entry. -/
theorem exists_key_st_of_fresh {pid : String} {st : List (String × PairSlots)}
    (hfresh : pid ∉ st.map Prod.fst) (p : String × PairSlots → Prop) :
    ¬ ∃ e ∈ st, e.1 = pid ∧ p e := by
  rintro ⟨e, he, rfl, -⟩
  exact hfresh (List.mem_map.mpr ⟨e, he, rfl⟩)

/-- Key-filtered existence over an update, at the updated key. -/
theorem exists_key_updSlot_self {pid : String} {d : Document} {old : PairSlots}
    {st : List (String × PairSlots)}
    (hmem : (pid, setSlot old d) ∈ updSlot st pid d)
    (huniq : ∀ v : PairSlots, (pid, v) ∈ updSlot st pid d → v = setSlot old d)
    (p : String × PairSlots → Prop) :
    (∃ e ∈ updSlot st pid d, e.1 = pid ∧ p e) ↔ p (pid, setSlot old d) := by
  constructor
  · rintro ⟨⟨k, v⟩, he, rfl, hp⟩
    rwa [huniq v he] at hp
  · intro hp
    exact ⟨(pid, setSlot old d), hmem, rfl, hp⟩

/-- Extending the processed documents preserves the per-entry invariant. -/
theorem SlotEntryOK_mono {docs : List Document} {d : Document} {e : String × PairSlots}
    (h : SlotEntryOK docs e) : SlotEntryOK (docs ++ [d]) e := by
  obtain ⟨h1, h2, h3, h4⟩ := h
  refine ⟨h1, h2, fun a ha => ?_, fun b hb => ?_⟩
  · obtain ⟨m1, m2, m3⟩ := h3 a ha
    exact ⟨List.mem_append_left _ m1, m2, m3⟩
  · obtain ⟨m1, m2, m3⟩ := h4 b hb
    exact ⟨List.mem_append_left _ m1, m2, m3⟩

/-- Appended-document existence collapses when the new document cannot be a
witness. -/
theorem exists_doc_append_iff {docs : List Document} {d : Document} {P : Document → Prop}
    (hd : ¬ P d) : (∃ x ∈ docs ++ [d], P x) ↔ ∃ x ∈ docs, P x := by
  constructor
  · rintro ⟨x, hx, hPx⟩
    rcases List.mem_append.mp hx with h1 | h1
    · exact ⟨x, h1, hPx⟩
    · rcases List.mem_singleton.mp h1 with rfl
      exact absurd hPx hd
  · rintro ⟨x, hx, hPx⟩
    exact ⟨x, List.mem_append_left _ hx, hPx⟩

/-- One step of the `paired_documents` loop preserves the invariant. -/
theorem SlotsInv_step {docs : List Document} {st : List (String × PairSlots)} {d : Document}
    (h : SlotsInv docs st) : SlotsInv (docs ++ [d]) (addDoc st d) := by
  obtain ⟨hnd, hok, hsrc, htgt⟩ := h
  rcases hpid : d.pair_id with _ | pid
  · simp only [addDoc, hpid]
    refine ⟨hnd, fun e he => SlotEntryOK_mono (hok e he), fun q => ?_, fun q => ?_⟩
    · rw [hsrc q]
      exact (exists_doc_append_iff (by simp [hpid])).symm
    · rw [htgt q]
      exact (exists_doc_append_iff (by simp [hpid])).symm
  · simp only [addDoc, hpid]
    by_cases hdash : pid = "-"
    · rw [if_neg (by simp [Document.is_paired, hpid, hdash])]
      refine ⟨hnd, fun e he => SlotEntryOK_mono (hok e he), fun q => ?_, fun q => ?_⟩
      · rw [hsrc q]
        refine (exists_doc_append_iff ?_).symm
        rintro ⟨h1, h2, -⟩
        rw [hpid] at h1
        cases h1
        exact h2 hdash
      · rw [htgt q]
        refine (exists_doc_append_iff ?_).symm
        rintro ⟨h1, h2, -⟩
        rw [hpid] at h1
        cases h1
        exact h2 hdash
    · rw [if_pos (by simp [Document.is_paired, hpid, hdash])]
      obtain ⟨old, hmem, holdsrc, huniq⟩ := @updSlot_self pid d st hnd
      have holdfacts : (∀ a : Document, old.1 = some a →
            a ∈ docs ∧ a.pair_id = some pid ∧ isSourceLang a.language = true)
          ∧ (∀ b : Document, old.2 = some b →
            b ∈ docs ∧ b.pair_id = some pid ∧ isSourceLang b.language = false) := by
        rcases holdsrc with h1 | h1
        · have := hok _ h1
          exact ⟨this.2.2.1, this.2.2.2⟩
        · rw [h1.1]
          exact ⟨by rintro a ⟨⟩, by rintro b ⟨⟩⟩
      refine ⟨updSlot_keys_nodup hnd, ?_, ?_, ?_⟩
      · intro e he
        by_cases hq : e.1 = pid
        · obtain ⟨k, v⟩ := e
          simp only at hq
          subst hq
          rw [huniq v he]
          refine ⟨hdash, ?_, ?_, ?_⟩
          · rw [setSlot]
            split <;> simp
          · intro a ha
            rw [setSlot] at ha
            split at ha
            · cases ha
              exact ⟨List.mem_append_right _ (List.mem_singleton.mpr rfl), hpid, by assumption⟩
            · obtain ⟨m1, m2, m3⟩ := holdfacts.1 a ha
              exact ⟨List.mem_append_left _ m1, m2, m3⟩
          · intro b hb
            rw [setSlot] at hb
            split at hb
            · obtain ⟨m1, m2, m3⟩ := holdfacts.2 b hb
              exact ⟨List.mem_append_left _ m1, m2, m3⟩
            · cases hb
              exact ⟨List.mem_append_right _ (List.mem_singleton.mpr rfl), hpid,
                by simp_all⟩
        · exact SlotEntryOK_mono (hok e (mem_of_mem_updSlot_ne he hq))
      · intro q
        by_cases hq : q = pid
        · subst hq
          rw [exists_key_updSlot_self hmem huniq]
          rcases hsl : isSourceLang d.language with _ | _
          · rw [setSlot, if_neg (by simp [hsl])]
            constructor
            · intro hp
              have : ∃ e ∈ st, e.1 = q ∧ e.2.1.isSome := by
                rcases holdsrc with h1 | h1
                · exact ⟨(q, old), h1, rfl, hp⟩
                · rw [h1.1] at hp
                  simp at hp
              obtain ⟨x, hx1, hx2, hx3, hx4⟩ := (hsrc q).mp this
              exact ⟨x, List.mem_append_left _ hx1, hx2, hx3, hx4⟩
            · intro hex
              have hex2 : ∃ x ∈ docs, x.pair_id = some q ∧ q ≠ "-"
                  ∧ isSourceLang x.language = true := by
                refine (exists_doc_append_iff ?_).mp hex
                rintro ⟨-, -, hcon⟩
                rw [hsl] at hcon
                cases hcon
              have := (hsrc q).mpr hex2
              rcases holdsrc with h1 | h1
              · exact (exists_key_st_of_mem hnd h1 (fun e => e.2.1.isSome = true)).mp this
              · exact absurd this (exists_key_st_of_fresh h1.2 _)
          · rw [setSlot, if_pos (by simp [hsl])]
            simp only [Option.isSome_some, true_iff]
            exact ⟨d, List.mem_append_right _ (List.mem_singleton.mpr rfl), hpid, hdash, hsl⟩
        · rw [exists_key_updSlot_ne hq]
          rw [hsrc q]
          refine (exists_doc_append_iff ?_).symm
          rintro ⟨h1, -, -⟩
          rw [hpid] at h1
          cases h1
          exact hq rfl
      · intro q
        by_cases hq : q = pid
        · subst hq
          rw [exists_key_updSlot_self hmem huniq]
          rcases hsl : isSourceLang d.language with _ | _
          · rw [setSlot, if_neg (by simp [hsl])]
            simp only [Option.isSome_some, true_iff]
            exact ⟨d, List.mem_append_right _ (List.mem_singleton.mpr rfl), hpid, hdash, hsl⟩
          · rw [setSlot, if_pos (by simp [hsl])]
            constructor
            · intro hp
              have : ∃ e ∈ st, e.1 = q ∧ e.2.2.isSome := by
                rcases holdsrc with h1 | h1
                · exact ⟨(q, old), h1, rfl, hp⟩
                · rw [h1.1] at hp
                  simp at hp
              obtain ⟨x, hx1, hx2, hx3, hx4⟩ := (htgt q).mp this
              exact ⟨x, List.mem_append_left _ hx1, hx2, hx3, hx4⟩
            · intro hex
              have hex2 : ∃ x ∈ docs, x.pair_id = some q ∧ q ≠ "-"
                  ∧ isSourceLang x.language = false := by
                refine (exists_doc_append_iff ?_).mp hex
                rintro ⟨-, -, hcon⟩
                rw [hsl] at hcon
                cases hcon
              have := (htgt q).mpr hex2
              rcases holdsrc with h1 | h1
              · exact (exists_key_st_of_mem hnd h1 (fun e => e.2.2.isSome = true)).mp this
              · exact absurd this (exists_key_st_of_fresh h1.2 _)
        · rw [exists_key_updSlot_ne hq]
          rw [htgt q]
          refine (exists_doc_append_iff ?_).symm
          rintro ⟨h1, -, -⟩
          rw [hpid] at h1
          cases h1
          exact hq rfl

/-- The invariant propagates along the whole document list. -/
theorem SlotsInv_foldl :
    ∀ (docs processed : List Document) (st : List (String × PairSlots)),
      SlotsInv processed st → SlotsInv (processed ++ docs) (docs.foldl addDoc st)
  | [], processed, st, h => by simpa using h
  | d :: rest, processed, st, h => by
    have h1 : SlotsInv (processed ++ [d]) (addDoc st d) := SlotsInv_step h
    have h2 := SlotsInv_foldl rest (processed ++ [d]) (addDoc st d) h1
    simpa using h2

/-- The `pairs` dict of `paired_documents` satisfies the invariant. -/
theorem SlotsInv_buildPairs (docs : List Document) : SlotsInv docs (buildPairs docs) := by
  have h0 : SlotsInv [] [] := by
    refine ⟨List.nodup_nil, by simp, fun q => ?_, fun q => ?_⟩ <;> simp
  simpa using SlotsInv_foldl docs [] [] h0

/-- Characterization of materialization. -/
theorem slotsToPair_eq_some {e : String × PairSlots} {pr : DocumentPair} :
    slotsToPair e = some pr ↔ e = (pr.pair_id, (some pr.source, some pr.target)) := by
  obtain ⟨pid, ps, pt⟩ := pr
  obtain ⟨k, s, t⟩ := e
  rcases s with _ | a <;> rcases t with _ | b <;>
    (simp [slotsToPair, DocumentPair.mk.injEq, Prod.ext_iff]; try tauto)

/-- Membership in the paired view, phrased over the slot table. -/
theorem mem_paired_documents {ds : DocumentSet} {pr : DocumentPair} :
    pr ∈ ds.paired_documents ↔
      (pr.pair_id, (some pr.source, some pr.target)) ∈ buildPairs ds.documents := by
  rw [DocumentSet.paired_documents, List.mem_filterMap]
  constructor
  · rintro ⟨e, he, hf⟩
    rw [slotsToPair_eq_some] at hf
    subst hf
    exact (perm_sortByKey _).mem_iff.mp he
  · intro h
    exact ⟨(pr.pair_id, (some pr.source, some pr.target)),
      (perm_sortByKey _).mem_iff.mpr h, slotsToPair_eq_some.mpr rfl⟩

/-- Pair ids of materialized pairs are distinct when slot keys are. -/
theorem nodup_pairIds_filterMap :
    ∀ {l : List (String × PairSlots)}, (l.map Prod.fst).Nodup →
      ((l.filterMap slotsToPair).map DocumentPair.pair_id).Nodup
  | [], _ => by simp
  | (k, v) :: rest, h => by
    rw [List.map_cons, List.nodup_cons] at h
    rw [List.filterMap_cons]
    rcases hf : slotsToPair (k, v) with _ | pr
    · exact nodup_pairIds_filterMap h.2
    · have hk : pr.pair_id = k := by
        rw [slotsToPair_eq_some] at hf
        injection hf with h1 h2
        exact h1.symm
      rw [List.map_cons, List.nodup_cons, hk]
      refine ⟨?_, nodup_pairIds_filterMap h.2⟩
      intro hmem
      rcases List.mem_map.mp hmem with ⟨pr', hpr', hid⟩
      rcases List.mem_filterMap.mp hpr' with ⟨e, he, hfe⟩
      rw [slotsToPair_eq_some] at hfe
      subst hfe
      exact h.1 (List.mem_map.mpr ⟨_, he, hid⟩)

/-- The pair ids of `paired_documents` are pairwise distinct. -/
theorem nodup_paired_pairIds (ds : DocumentSet) :
    (ds.paired_documents.map DocumentPair.pair_id).Nodup := by
  have h1 := (SlotsInv_buildPairs ds.documents).1
  have h2 : ((sortByKey (buildPairs ds.documents)).map Prod.fst).Nodup :=
    ((perm_sortByKey _).map Prod.fst).nodup_iff.mpr h1
  exact nodup_pairIds_filterMap h2

/-- Role and provenance facts for every materialized pair. -/
theorem paired_documents_facts {ds : DocumentSet} {pr : DocumentPair}
    (h : pr ∈ ds.paired_documents) :
    pr.pair_id ≠ "-"
      ∧ pr.source ∈ ds.documents ∧ pr.source.pair_id = some pr.pair_id
      ∧ isSourceLang pr.source.language = true
      ∧ pr.target ∈ ds.documents ∧ pr.target.pair_id = some pr.pair_id
      ∧ isSourceLang pr.target.language = false := by
  have hmem := mem_paired_documents.mp h
  obtain ⟨-, hok, -, -⟩ := SlotsInv_buildPairs ds.documents
  obtain ⟨h1, -, h3, h4⟩ := hok _ hmem
  obtain ⟨m1, m2, m3⟩ := h3 pr.source rfl
  obtain ⟨n1, n2, n3⟩ := h4 pr.target rfl
  exact ⟨h1, m1, m2, m3, n1, n2, n3⟩

/-- Membership in the `paired_filenames` set. -/
theorem mem_pairedFilenamesList {s : String} :
    ∀ l : List DocumentPair,
      s ∈ l.foldr (fun pr acc => pr.source.filename :: pr.target.filename :: acc) [] ↔
        ∃ pr ∈ l, pr.source.filename = s ∨ pr.target.filename = s
  | [] => by simp
  | pr :: rest => by
    simp only [List.foldr_cons, List.mem_cons, mem_pairedFilenamesList rest]
    constructor
    · rintro (h | h | ⟨pr', hpr', hor⟩)
      · exact ⟨pr, Or.inl rfl, Or.inl h.symm⟩
      · exact ⟨pr, Or.inl rfl, Or.inr h.symm⟩
      · exact ⟨pr', Or.inr hpr', hor⟩
    · rintro ⟨pr', (rfl | hpr'), hor⟩
      · rcases hor with h | h
        · exact Or.inl h.symm
        · exact Or.inr (Or.inl h.symm)
      · exact Or.inr (Or.inr ⟨pr', hpr', hor⟩)

/-- Documents of a set are determined by their filenames when filenames are
pairwise distinct. -/
theorem filename_inj {docs : List Document}
    (hnd : (docs.map Document.filename).Nodup) {a b : Document}
    (ha : a ∈ docs) (hb : b ∈ docs) (hf : a.filename = b.filename) : a = b := by
  induction docs with
  | nil => simp at ha
  | cons x rest ih =>
    rw [List.map_cons, List.nodup_cons] at hnd
    rcases List.mem_cons.mp ha with rfl | ha1
    · rcases List.mem_cons.mp hb with rfl | hb1
      · rfl
      · exact absurd (List.mem_map.mpr ⟨b, hb1, hf.symm⟩) hnd.1
    · rcases List.mem_cons.mp hb with rfl | hb1
      · exact absurd (List.mem_map.mpr ⟨a, ha1, hf⟩) hnd.1
      · exact ih hnd.2 ha1 hb1

/-- Counting: a list with no satisfying element counts zero. -/
theorem countP_zero_of_none {α : Type} {l : List α} {p : α → Bool}
    (h : ∀ x ∈ l, p x = false) : l.countP p = 0 :=
  List.countP_eq_zero.mpr (by simpa using h)

/-- Counting: a duplicate-free list with a unique satisfying element counts
one. -/
theorem countP_one_of_unique {α : Type} (p : α → Bool) (l : List α) : l.Nodup →
    ∀ x : α, x ∈ l → p x = true → (∀ y ∈ l, p y = true → y = x) → l.countP p = 1 := by
  induction l with
  | nil =>
    intro _ x hx
    simp at hx
  | cons a rest ih =>
    intro hl x hx hp huniq
    rw [List.nodup_cons] at hl
    rcases List.mem_cons.mp hx with rfl | hx1
    · rw [List.countP_cons, hp]
      have h0 : rest.countP p = 0 := by
        refine countP_zero_of_none ?_
        intro y hy
        cases hpy : p y
        · rfl
        · rw [huniq y (List.mem_cons_of_mem _ hy) hpy] at hy
          exact absurd hy hl.1
      simp [h0]
    · have hax : a ≠ x := fun h => hl.1 (h ▸ hx1)
      have hpa : p a = false := by
        cases hpa : p a
        · rfl
        · exact absurd (huniq a (List.mem_cons_self _ _) hpa) hax
      rw [List.countP_cons, hpa]
      have := ih hl.2 x hx1 hp (fun y hy hpy => huniq y (List.mem_cons_of_mem _ hy) hpy)
      simpa using this

/-! ### String scanning lemmas for the response parser -/

/-- Case-insensitive character equality is reflexive. -/
theorem lcEq_refl (c : Char) : lcEq c c = true := by
  simp [lcEq]

/-- Stripping a pattern from a text that starts with exactly that pattern
succeeds and returns the remainder. -/
theorem stripPrefixCI_self : ∀ (p z : List Char), stripPrefixCI p (p ++ z) = some z
  | [], z => rfl
  | c :: p, z => by
    simp only [List.cons_append, stripPrefixCI, lcEq_refl, if_true]
    exact stripPrefixCI_self p z

/-- If the matcher succeeds at the current position, the scan stops here with
an empty consumed prefix. -/
theorem scanPosO_eq_some {α : Type} {f : List Char → Option α} {s : List Char} {y : α}
    (h : f s = some y) : scanPosO f s = some ([], y) := by
  cases s <;> simp [scanPosO, h]

/-- If the matcher fails at the current position, the scan defers to the tail,
recording the consumed character. -/
theorem scanPosO_cons_none {α : Type} {f : List Char → Option α} {c : Char} {cs : List Char}
    (h : f (c :: cs) = none) :
    scanPosO f (c :: cs) = (scanPosO f cs).map (fun pr => (c :: pr.1, pr.2)) := by
  rw [scanPosO, h]

/-- A scan over `A ++ B` where the matcher fails at every position inside `A`
is the scan over `B` with the consumed prefix extended by `A`. -/
theorem scanPosO_append_none {α : Type} {f : List Char → Option α} {B : List Char} :
    ∀ (A : List Char), (∀ a₂ ∈ A.tails, a₂ ≠ [] → f (a₂ ++ B) = none) →
      scanPosO f (A ++ B) = (scanPosO f B).map (fun pr => (A ++ pr.1, pr.2))
  | [], _ => by
    cases hb : scanPosO f B with
    | none => simp [hb]
    | some pr => simp [hb]
  | c :: A, h => by
    have h0 : f (c :: (A ++ B)) = none :=
      h (c :: A) (by rw [List.tails_cons]; exact List.mem_cons_self _ _) (by simp)
    have hrec := scanPosO_append_none A
      (fun a₂ ha hne => h a₂ (by rw [List.tails_cons]; exact List.mem_cons_of_mem _ ha) hne)
    show scanPosO f (c :: (A ++ B)) = _
    rw [scanPosO_cons_none h0, hrec]
    cases hb : scanPosO f B with
    | none => simp
    | some pr => simp

/-- A failed substring test means the needle is not a prefix. -/
theorem containsSub_head_false {n l : List Char} (h : containsSub n l = false) :
    n.isPrefixOf l = false := by
  cases l with
  | nil =>
    cases n with
    | nil => simp [containsSub] at h
    | cons c cs => rfl
  | cons c cs =>
    rw [containsSub] at h
    exact (Bool.or_eq_false_iff.mp h).1

/-- A failed substring test persists on the tail. -/
theorem containsSub_tail_false {n : List Char} {c : Char} {cs : List Char}
    (h : containsSub n (c :: cs) = false) : containsSub n cs = false := by
  rw [containsSub] at h
  exact (Bool.or_eq_false_iff.mp h).2

/-- A substring of the right part of an append is a substring of the whole. -/
theorem containsSub_append_right {n : List Char} : ∀ (u : List Char) {v : List Char},
    containsSub n v = true → containsSub n (u ++ v) = true
  | [], _, h => h
  | c :: u, v, h => by
    show containsSub n (c :: (u ++ v)) = true
    rw [containsSub, containsSub_append_right u h, Bool.or_true]

/-- Absence of a substring is inherited by suffixes. -/
theorem containsSub_false_suffix {n u v : List Char}
    (h : containsSub n (u ++ v) = false) : containsSub n v = false := by
  cases hv : containsSub n v with
  | false => rfl
  | true => rw [containsSub_append_right u hv] at h; exact Bool.noConfusion h

/-- A nonempty prefix occurrence is a substring occurrence. -/
theorem containsSub_of_isPrefixOf {n : List Char} (hn : n ≠ []) {l : List Char}
    (h : n.isPrefixOf l = true) : containsSub n l = true := by
  cases l with
  | nil =>
    cases n with
    | nil => exact absurd rfl hn
    | cons c cs => exact Bool.noConfusion h
  | cons c cs => rw [containsSub, h, Bool.true_or]

/-- Byte-wise prefix testing is reflexive. -/
theorem isPrefixOf_self : ∀ (l : List Char), l.isPrefixOf l = true
  | [] => rfl
  | c :: cs => by
    show ((c == c) && cs.isPrefixOf cs) = true
    rw [beq_self_eq_true, isPrefixOf_self cs, Bool.and_self]

/-- A prefix of an append either lies inside the left part or is an extension
of the whole left part into the right part. -/
theorem isPrefixOf_append_cases : ∀ (a n b : List Char), n.isPrefixOf (a ++ b) = true →
    n.isPrefixOf a = true ∨ (a.isPrefixOf n = true ∧ (n.drop a.length).isPrefixOf b = true)
  | [], n, b, h => Or.inr ⟨by cases n <;> rfl, h⟩
  | _ :: _, [], _, _ => Or.inl rfl
  | c :: a, d :: n, b, h => by
    have h' : (d == c) = true ∧ n.isPrefixOf (a ++ b) = true := by
      have hh : ((d == c) && n.isPrefixOf (a ++ b)) = true := h
      exact Bool.and_eq_true_iff.mp hh
    rcases isPrefixOf_append_cases a n b h'.2 with h1 | ⟨h2, h3⟩
    · refine Or.inl ?_
      show ((d == c) && n.isPrefixOf a) = true
      rw [h'.1, h1, Bool.and_self]
    · refine Or.inr ⟨?_, h3⟩
      show ((c == d) && a.isPrefixOf n) = true
      rw [show c = d from (eq_of_beq h'.1).symm, beq_self_eq_true, h2, Bool.and_self]

/-- When the needle avoids the newline character, no proper tail of the needle
can match at a position that starts with a newline. -/
theorem drop_not_prefix_newline {n R : List Char} (hnl : '\n' ∉ n)
    {k : Nat} (hk : k < n.length) : (n.drop k).isPrefixOf ('\n' :: R) = false := by
  cases hd : n.drop k with
  | nil =>
    have := List.drop_eq_nil_iff.mp hd
    omega
  | cons c t =>
    have hc : c ∈ n := List.mem_of_mem_drop (by rw [hd]; exact List.mem_cons_self c t)
    have hcn : c ≠ '\n' := fun he => hnl (he ▸ hc)
    show ((c == '\n') && t.isPrefixOf R) = false
    rw [beq_eq_false_iff_ne.mpr hcn, Bool.false_and]

/-- Cross-boundary exclusion: a newline-free needle that does not occur in `L`
cannot match starting inside any nonempty tail of `L` when the text continues
with a newline. -/
theorem not_prefix_boundary {n L : List Char} (hn : n ≠ []) (hnl : '\n' ∉ n)
    (hL : containsSub n L = false) {a₂ : List Char} (ha : a₂ ∈ L.tails)
    (R : List Char) : n.isPrefixOf (a₂ ++ '\n' :: R) = false := by
  cases hp : n.isPrefixOf (a₂ ++ '\n' :: R) with
  | false => rfl
  | true =>
    exfalso
    obtain ⟨u, hu⟩ := (List.mem_tails a₂ L).mp ha
    rcases isPrefixOf_append_cases a₂ n ('\n' :: R) hp with h1 | ⟨h2, h3⟩
    · have hcs : containsSub n L = true := by
        rw [← hu]
        exact containsSub_append_right u (containsSub_of_isPrefixOf hn h1)
      rw [hL] at hcs
      exact Bool.noConfusion hcs
    · by_cases hlen : a₂.length < n.length
      · rw [drop_not_prefix_newline hnl hlen] at h3
        exact Bool.noConfusion h3
      · obtain ⟨t, ht⟩ := List.isPrefixOf_iff_prefix.mp h2
        have hteq : t = [] := by
          have hlth := congrArg List.length ht
          rw [List.length_append] at hlth
          have : t.length = 0 := by omega
          exact List.length_eq_zero.mp this
        subst hteq
        have han : a₂ = n := by simpa using ht
        have hcs : containsSub n L = true := by
          rw [← hu]
          refine containsSub_append_right u (containsSub_of_isPrefixOf hn ?_)
          rw [han]
          exact isPrefixOf_self n
        rw [hL] at hcs
        exact Bool.noConfusion hcs

/-- Python `"##" not in s` implies `"\n##" not in s`. -/
theorem not_contains_nlhh : ∀ {l : List Char}, containsSub "##".data l = false →
    containsSub "\n##".data l = false
  | [], _ => rfl
  | c :: cs, h => by
    have h2 : containsSub "##".data cs = false := containsSub_tail_false h
    rw [containsSub, not_contains_nlhh h2, Bool.or_false]
    cases hp : ("\n##".data).isPrefixOf (c :: cs) with
    | false => rfl
    | true =>
      exfalso
      have hand : (('\n' == c) && ("##".data).isPrefixOf cs) = true := hp
      have h3 := (Bool.and_eq_true_iff.mp hand).2
      have hcs : containsSub "##".data cs = true := by
        cases cs with
        | nil => exact Bool.noConfusion h3
        | cons d ds => rw [containsSub, h3, Bool.true_or]
      rw [h2] at hcs
      exact Bool.noConfusion hcs

/-- Splitting an append under `dropWhile`: either the whole left part is
whitespace and stripping continues into the right part, or it stops inside the
left part. -/
theorem dropWhile_append₂ (p : Char → Bool) : ∀ (u w : List Char),
    (u ++ w).dropWhile p = if u.dropWhile p = [] then w.dropWhile p else u.dropWhile p ++ w
  | [], w => by simp
  | c :: u, w => by
    show List.dropWhile p (c :: (u ++ w)) = _
    rw [List.dropWhile_cons, List.dropWhile_cons]
    cases hpc : p c with
    | false => simp
    | true =>
      simp only [if_true]
      exact dropWhile_append₂ p u w

/-- Dropping a leading whitespace run is idempotent. -/
theorem dropWhile_idem (p : Char → Bool) : ∀ (l : List Char),
    (l.dropWhile p).dropWhile p = l.dropWhile p
  | [] => rfl
  | c :: l => by
    rw [List.dropWhile_cons]
    cases hpc : p c with
    | true => simp only [if_true]; exact dropWhile_idem p l
    | false => simp [List.dropWhile_cons, hpc]

/-- Stripping ignores one trailing whitespace character. -/
theorem stripChars_append_ws {u : List Char} {c : Char} (hc : pyIsSpace c = true) :
    stripChars (u ++ [c]) = stripChars u := by
  rw [stripChars, stripChars, dropWhile_append₂]
  by_cases hu : u.dropWhile pyIsSpace = []
  · rw [if_pos hu, hu]
    simp [List.dropWhile, hc]
  · rw [if_neg hu, List.reverse_append]
    simp [List.dropWhile_cons, hc]

/-- Stripping ignores a previously removed leading whitespace run. -/
theorem stripChars_dropWhile (l : List Char) :
    stripChars (l.dropWhile pyIsSpace) = stripChars l := by
  rw [stripChars, stripChars, dropWhile_idem]

/-- Either there is no final newline to drop, or exactly one is dropped. -/
theorem dropFinalNl_cases : ∀ (l : List Char),
    dropFinalNl l = l ∨ ∃ u, l = u ++ ['\n'] ∧ dropFinalNl l = u
  | [] => Or.inl rfl
  | c :: cs => by
    rw [dropFinalNl]
    by_cases h : c = '\n' ∧ cs = []
    · refine Or.inr ⟨[], ?_, ?_⟩
      · rw [h.1, h.2]; rfl
      · rw [if_pos h]
    · rcases dropFinalNl_cases cs with h1 | ⟨u, hu1, hu2⟩
      · rw [if_neg h, h1]
        exact Or.inl rfl
      · refine Or.inr ⟨c :: u, ?_, ?_⟩
        · rw [hu1]; rfl
        · rw [if_neg h, hu2]

/-- Stripping is unaffected by first removing a single final newline. -/
theorem stripChars_dropFinalNl (l : List Char) :
    stripChars (dropFinalNl l) = stripChars l := by
  rcases dropFinalNl_cases l with h | ⟨u, h1, h2⟩
  · rw [h]
  · rw [h2, h1, stripChars_append_ws (by decide)]

/-- The only character case-insensitively equal to a hash is the hash itself. -/
theorem lcEq_hash {c : Char} (h : lcEq '#' c = true) : c = '#' := by
  have h35 : ('#' : Char).toNat = 35 := by decide
  simp only [lcEq, Bool.or_eq_true, Bool.and_eq_true, decide_eq_true_eq] at h
  rcases h with (h | ⟨⟨h1, h2⟩, h3⟩) | ⟨⟨h1, h2⟩, h3⟩
  · exact h.symm
  · omega
  · omega

/-- A pattern starting with two hashes cannot match starting inside a tail of
a hash-free text `L` when the text continues with a newline. -/
theorem stripPrefixCI_hash_boundary {p L : List Char}
    (hL : containsSub "##".data L = false) {a₂ : List Char} (ha : a₂ ∈ L.tails)
    (hne : a₂ ≠ []) (R : List Char) :
    stripPrefixCI ('#' :: '#' :: p) (a₂ ++ '\n' :: R) = none := by
  obtain ⟨u, hu⟩ := (List.mem_tails a₂ L).mp ha
  cases a₂ with
  | nil => exact absurd rfl hne
  | cons c cs =>
    show stripPrefixCI ('#' :: '#' :: p) (c :: (cs ++ '\n' :: R)) = none
    rw [stripPrefixCI]
    cases h1 : lcEq '#' c with
    | false => simp
    | true =>
      have hc : c = '#' := lcEq_hash h1
      simp only [if_true]
      cases cs with
      | nil =>
        show stripPrefixCI ('#' :: p) ('\n' :: R) = none
        rw [stripPrefixCI]
        simp [show lcEq '#' '\n' = false from by decide]
      | cons c2 cs2 =>
        show stripPrefixCI ('#' :: p) (c2 :: (cs2 ++ '\n' :: R)) = none
        rw [stripPrefixCI]
        cases h2 : lcEq '#' c2 with
        | false => simp
        | true =>
          exfalso
          have hc2 : c2 = '#' := lcEq_hash h2
          subst hc
          subst hc2
          have hpre : ("##".data).isPrefixOf ('#' :: '#' :: cs2) = true := by
            have h0 : List.isPrefixOf [] cs2 = true := by cases cs2 <;> rfl
            show (('#' == '#') && (('#' == '#') && List.isPrefixOf [] cs2)) = true
            rw [beq_self_eq_true, h0, Bool.and_self, Bool.and_self]
          have hcs : containsSub "##".data L = true := by
            rw [← hu]
            exact containsSub_append_right u (containsSub_of_isPrefixOf (by decide) hpre)
          rw [hL] at hcs
          exact Bool.noConfusion hcs

/-- Neither GUIDELINES heading pattern can match starting inside a tail of a
hash-free text when the text continues with a newline. -/
theorem guidelinesHeadAt_boundary {L : List Char}
    (hL : containsSub "##".data L = false) {a₂ : List Char} (ha : a₂ ∈ L.tails)
    (hne : a₂ ≠ []) (R : List Char) : guidelinesHeadAt (a₂ ++ '\n' :: R) = none := by
  have h1 : stripPrefixCI "### GUIDELINES".data (a₂ ++ '\n' :: R) = none :=
    stripPrefixCI_hash_boundary hL ha hne R
  have h2 : stripPrefixCI "## GUIDELINES".data (a₂ ++ '\n' :: R) = none :=
    stripPrefixCI_hash_boundary hL ha hne R
  rw [guidelinesHeadAt, h1]
  exact h2

/-- A failing heading makes the whole GUIDELINES matcher fail. -/
theorem matchGuidelinesAt_none {t : List Char} (h : guidelinesHeadAt t = none) :
    matchGuidelinesAt t = none := by
  simp [matchGuidelinesAt, h]

/-- An initial segment of a matching pattern also matches. -/
theorem isPrefixOf_append_left : ∀ (u v t : List Char),
    (u ++ v).isPrefixOf t = true → u.isPrefixOf t = true
  | [], _, t, _ => by cases t <;> rfl
  | a :: u, v, b :: t, h => by
    have h' : ((a == b) && (u ++ v).isPrefixOf t) = true := h
    rcases Bool.and_eq_true_iff.mp h' with ⟨hab, htail⟩
    show ((a == b) && u.isPrefixOf t) = true
    rw [hab, isPrefixOf_append_left u v t htail, Bool.and_self]

/-- Where the single-mode lookahead holds: at a heading boundary, at the end
of the text, or just before a final newline. -/
theorem lookSingleG_shape {t : List Char} (h : lookSingleG t = true) :
    ("\n##".data).isPrefixOf t = true ∨ t = [] ∨ t = ['\n'] := by
  rw [lookSingleG] at h
  simp only [Bool.or_eq_true, decide_eq_true_eq, List.isEmpty_iff] at h
  rcases h with ((h3 | h4) | h5) | h2
  · exact Or.inl (isPrefixOf_append_left "\n##".data ['#'] t h3)
  · exact Or.inl (isPrefixOf_append_left "\n##".data [' '] t h4)
  · exact Or.inr (Or.inl h5)
  · exact Or.inr (Or.inr h2)

/-- On a text free of interior heading boundaries, the lazy-capture scan of
the single-mode GUIDELINES pattern consumes everything up to the final `$`
position: the whole text minus a single final newline. -/
theorem scan_lookSingle : ∀ (l : List Char), containsSub "\n##".data l = false →
    scanPosO (fun t => if lookSingleG t then some () else none) l = some (dropFinalNl l, ())
  | [], _ => by decide
  | c :: cs, h => by
    have hh : ("\n##".data).isPrefixOf (c :: cs) = false := containsSub_head_false h
    have ht : containsSub "\n##".data cs = false := containsSub_tail_false h
    by_cases hnl : c = '\n' ∧ cs = []
    · obtain ⟨rfl, rfl⟩ := hnl
      decide
    · have hflse : lookSingleG (c :: cs) = false := by
        cases hls : lookSingleG (c :: cs) with
        | false => rfl
        | true =>
          rcases lookSingleG_shape hls with h1 | h2 | h3
          · rw [h1] at hh
            exact Bool.noConfusion hh
          · exact List.noConfusion h2
          · refine absurd ?_ hnl
            injection h3 with hA hB
            exact ⟨hA, hB⟩
      rw [scanPosO_cons_none (by simp [hflse]), scan_lookSingle cs ht]
      rw [show dropFinalNl (c :: cs) = c :: dropFinalNl cs from by rw [dropFinalNl, if_neg hnl]]
      rfl

/-- Full computation of the GUIDELINES matcher when the heading matches and
the remainder is free of interior heading boundaries. -/
theorem matchGuidelinesAt_some {s r0 : List Char} (h : guidelinesHeadAt s = some r0)
    (hY : containsSub "\n##".data (r0.dropWhile pyIsSpace) = false) :
    matchGuidelinesAt s = some (dropFinalNl (r0.dropWhile pyIsSpace)) := by
  simp [matchGuidelinesAt, h, scan_lookSingle _ hY]

/-- Full computation of the CLIENT_RULES matcher from the outcomes of its
three stages. -/
theorem matchClientRulesAt_some {head s r0 r2 cap : List Char}
    (h0 : stripPrefixCI head s = some r0)
    (h2 : stripPrefixCI "```javascript".data (r0.dropWhile pyIsSpace) = some r2)
    (h5 : scanPosO (fun t => if ("```".data).isPrefixOf t then some () else none)
        (r2.dropWhile pyIsSpace) = some (cap, ())) :
    matchClientRulesAt head s = some cap := by
  unfold matchClientRulesAt
  rw [h0, show (some r0 : Option (List Char)) = pure r0 from rfl, pure_bind]
  simp only []
  rw [h2, show (some r2 : Option (List Char)) = pure r2 from rfl, pure_bind]
  rw [h5, show (some (cap, ()) : Option (List Char × Unit)) = pure (cap, ()) from rfl, pure_bind]
  rfl

/-- The GUIDELINES matcher fails at every position strictly inside the
literal `### CLIENT_RULES` heading and fence opener, whatever follows. -/
theorem lit1_guidelines_none (w : List Char) :
    ∀ a₂ ∈ ("### CLIENT_RULES\n```javascript\n".data).tails, a₂ ≠ [] →
      matchGuidelinesAt (a₂ ++ w) = none := by
  intro a₂ ha hne
  fin_cases ha <;> first | exact absurd rfl hne | rfl

/-- The GUIDELINES matcher fails at every position strictly inside the
closing-fence literal, whatever follows. -/
theorem lit3_guidelines_none (w : List Char) :
    ∀ a₂ ∈ ("\n```\n".data).tails, a₂ ≠ [] →
      matchGuidelinesAt (a₂ ++ w) = none := by
  intro a₂ ha hne
  fin_cases ha <;> first | exact absurd rfl hne | rfl

/-- The closing-fence test fails on the single newline before the fence. -/
theorem litnl_fence_none (w : List Char) :
    ∀ a₂ ∈ ("\n".data).tails, a₂ ≠ [] →
      (if ("```".data).isPrefixOf (a₂ ++ w) = true then some () else (none : Option Unit)) = none := by
  intro a₂ ha hne
  fin_cases ha <;> first | exact absurd rfl hne | rfl

/-! ## Claims -/

/-! ### The pairing algorithm: invariant of `findPairsAux` -/

/-- The non-sentinel pair ids in reverse assignment order: each id appears
twice, newest first. -/
def dupIds : Nat → List String
  | 0 => []
  | n + 1 => natToStr (n + 1) :: natToStr (n + 1) :: dupIds n

/-- The non-sentinel pair ids in assignment order. -/
def ascIds : Nat → List String
  | 0 => []
  | n + 1 => ascIds n ++ [natToStr (n + 1), natToStr (n + 1)]

/-- Reversing the newest-first id list yields the assignment-order list. -/
theorem dupIds_reverse : ∀ k, (dupIds k).reverse = ascIds k
  | 0 => rfl
  | k + 1 => by
    rw [dupIds, ascIds, List.reverse_cons, List.reverse_cons, dupIds_reverse k,
      List.append_assoc]
    simp

/-- Invariant of the `find_pairs` row loop. -/
structure C2Inv (all : List FileRow) (processed : List String)
    (assigned : List (String × String)) (counter : Nat) : Prop where
  procEq : processed = assigned.map Prod.fst
  counterPos : 1 ≤ counter
  keysNodup : (assigned.map Prod.fst).Nodup
  idsShape : ∀ e ∈ assigned, e.2 = "-" ∨ ∃ n, 1 ≤ n ∧ n < counter ∧ e.2 = natToStr n
  pairsExact : ∀ n, 1 ≤ n → n < counter →
    ∃ fa fb ra rb,
      assigned.filter (fun e => e.2 == natToStr n) = [(fa, natToStr n), (fb, natToStr n)]
        ∧ fa ≠ fb ∧ ra ∈ all ∧ rb ∈ all ∧ ra.filename = fa ∧ rb.filename = fb
        ∧ ra.language ≠ rb.language ∧ ra.language ≠ "UNKNOWN" ∧ rb.language ≠ "UNKNOWN"
  chron : (assigned.map Prod.snd).filter (fun p => p != "-") = dupIds (counter - 1)
  keysInAll : ∀ f ∈ assigned.map Prod.fst, ∃ r ∈ all, r.filename = f

/-- Prepending a sentinel row keeps the invariant (the three `"-"` branches
of the loop all do exactly this). -/
theorem C2Inv_dash {all : List FileRow} {processed : List String}
    {assigned : List (String × String)} {counter : Nat} {r : FileRow}
    (h : C2Inv all processed assigned counter)
    (hr : r ∈ all) (hproc : r.filename ∉ processed) :
    C2Inv all (r.filename :: processed) ((r.filename, "-") :: assigned) counter := by
  obtain ⟨procEq, counterPos, keysNodup, idsShape, pairsExact, chron, keysInAll⟩ := h
  refine ⟨by rw [List.map_cons, procEq], counterPos, ?_, ?_, ?_, ?_, ?_⟩
  · rw [List.map_cons, List.nodup_cons]
    exact ⟨by rw [← procEq]; exact hproc, keysNodup⟩
  · intro e he
    rcases List.mem_cons.mp he with rfl | h1
    · exact Or.inl rfl
    · exact idsShape e h1
  · intro n h1 h2
    obtain ⟨fa, fb, ra, rb, hfil, hrest⟩ := pairsExact n h1 h2
    refine ⟨fa, fb, ra, rb, ?_, hrest⟩
    rw [List.filter_cons, if_neg (by simp [natToStr_ne_dash n |>.symm]), hfil]
  · rw [List.map_cons, List.filter_cons]
    rw [if_neg (by simp)]
    exact chron
  · intro f hf
    rw [List.map_cons] at hf
    rcases List.mem_cons.mp hf with h1 | h1
    · exact ⟨r, hr, h1.symm⟩
    · exact keysInAll f h1

/-- Prepending a fresh pair keeps the invariant with the counter advanced. -/
theorem C2Inv_pair {all : List FileRow} {processed : List String}
    {assigned : List (String × String)} {counter : Nat} {r m : FileRow}
    (h : C2Inv all processed assigned counter)
    (hr : r ∈ all) (hm : m ∈ all)
    (hrproc : r.filename ∉ processed) (hmproc : m.filename ∉ processed)
    (hne : m.filename ≠ r.filename)
    (hlang : m.language ≠ r.language)
    (hrunk : r.language ≠ "UNKNOWN") (hmunk : m.language ≠ "UNKNOWN") :
    C2Inv all (m.filename :: r.filename :: processed)
      ((m.filename, natToStr counter) :: (r.filename, natToStr counter) :: assigned)
      (counter + 1) := by
  obtain ⟨procEq, counterPos, keysNodup, idsShape, pairsExact, chron, keysInAll⟩ := h
  have hidnotold : ∀ e ∈ assigned, e.2 ≠ natToStr counter := by
    intro e he hc
    rcases idsShape e he with h1 | ⟨n, hn1, hn2, hn3⟩
    · rw [h1] at hc
      exact natToStr_ne_dash counter hc.symm
    · rw [hn3] at hc
      have := natToStr_inj hc
      omega
  refine ⟨by simp [procEq], by omega, ?_, ?_, ?_, ?_, ?_⟩
  · simp only [List.map_cons, List.nodup_cons, List.mem_cons]
    refine ⟨?_, ?_, keysNodup⟩
    · push_neg
      exact ⟨hne, by rw [← procEq]; exact hmproc⟩
    · rw [← procEq]
      exact hrproc
  · intro e he
    rcases List.mem_cons.mp he with rfl | he1
    · exact Or.inr ⟨counter, by omega, by omega, rfl⟩
    rcases List.mem_cons.mp he1 with rfl | he2
    · exact Or.inr ⟨counter, by omega, by omega, rfl⟩
    · rcases idsShape e he2 with h1 | ⟨n, hn1, hn2, hn3⟩
      · exact Or.inl h1
      · exact Or.inr ⟨n, hn1, by omega, hn3⟩
  · intro n h1 h2
    by_cases hn : n = counter
    · subst hn
      refine ⟨m.filename, r.filename, m, r, ?_, hne, hm, hr, rfl, rfl, hlang, hmunk, hrunk⟩
      rw [List.filter_cons, if_pos (by simp), List.filter_cons, if_pos (by simp)]
      have : assigned.filter (fun e => e.2 == natToStr n) = [] := by
        rw [List.filter_eq_nil_iff]
        intro e he
        simp only [beq_iff_eq]
        exact hidnotold e he
      rw [this]
    · have h2' : n < counter := by omega
      obtain ⟨fa, fb, ra, rb, hfil, hrest⟩ := pairsExact n h1 h2'
      refine ⟨fa, fb, ra, rb, ?_, hrest⟩
      have hc : (natToStr counter == natToStr n) = false := by
        simp only [beq_eq_false_iff_ne, ne_eq]
        intro hc
        exact hn (natToStr_inj hc).symm
      rw [List.filter_cons, if_neg (by simp [hc]), List.filter_cons, if_neg (by simp [hc]),
        hfil]
  · simp only [List.map_cons, List.filter_cons]
    rw [if_pos (by simp [natToStr_ne_dash counter]), if_pos (by simp [natToStr_ne_dash counter])]
    rw [chron]
    have hps : counter + 1 - 1 = (counter - 1) + 1 := by omega
    rw [hps, dupIds]
    have : counter - 1 + 1 = counter := by omega
    rw [this]
  · intro f hf
    simp only [List.map_cons, List.mem_cons] at hf
    rcases hf with rfl | rfl | h1
    · exact ⟨m, hm, rfl⟩
    · exact ⟨r, hr, rfl⟩
    · exact keysInAll f h1

/-- Bool-level membership for Python's `in` on lists. -/
theorem contains_iff_mem {l : List String} {a : String} : l.contains a = true ↔ a ∈ l := by
  simp

/-- Keys of a suffix survive in the appended result. -/
theorem key_mem_append {pre assigned : List (String × String)} {f : String}
    (h : f ∈ assigned.map Prod.fst) : f ∈ (pre ++ assigned).map Prod.fst := by
  rw [List.map_append]
  exact List.mem_append_right _ h

/-- The row loop of `find_pairs` preserves the invariant, only prepends to
the assignment list, and assigns every row it visits. -/
theorem findPairsAux_inv (all : List FileRow) (fd : List (String × String)) :
    ∀ (rest : List FileRow) (processed : List String) (assigned : List (String × String))
      (counter : Nat),
      (∀ r ∈ rest, r ∈ all) → C2Inv all processed assigned counter →
      ∃ counterF processedF pre,
        counter ≤ counterF
          ∧ findPairsAux all fd rest processed assigned counter = pre ++ assigned
          ∧ C2Inv all processedF (findPairsAux all fd rest processed assigned counter) counterF
          ∧ ∀ r ∈ rest,
              r.filename ∈ (findPairsAux all fd rest processed assigned counter).map Prod.fst
  | [], processed, assigned, counter, _, hinv =>
    ⟨counter, processed, [], Nat.le_refl _, rfl, hinv, by simp⟩
  | r :: rest, processed, assigned, counter, hsub, hinv => by
    have hr : r ∈ all := hsub r (List.mem_cons_self _ _)
    have hsub' : ∀ x ∈ rest, x ∈ all := fun x hx => hsub x (List.mem_cons_of_mem _ hx)
    rcases hproc : processed.contains r.filename with _ | _
    · -- row not yet processed
      have hnotproc : r.filename ∉ processed := by
        intro hmem
        have hc := contains_iff_mem.mpr hmem
        rw [hproc] at hc
        cases hc
      by_cases hunk : r.language = "UNKNOWN"
      · -- unknown language: sentinel
        have hstep : findPairsAux all fd (r :: rest) processed assigned counter
            = findPairsAux all fd rest (r.filename :: processed)
                ((r.filename, "-") :: assigned) counter := by
          rw [findPairsAux, hproc]
          simp [hunk]
        have hinv' := C2Inv_dash hinv hr hnotproc
        obtain ⟨cF, pF, pre, hle, happ, hinvF, hcov⟩ :=
          findPairsAux_inv all fd rest (r.filename :: processed)
            ((r.filename, "-") :: assigned) counter hsub' hinv'
        refine ⟨cF, pF, pre ++ [(r.filename, "-")], hle, ?_, by rw [hstep]; exact hinvF, ?_⟩
        · rw [hstep, happ]
          simp
        · intro x hx
          rw [hstep]
          rcases List.mem_cons.mp hx with rfl | hx1
          · rw [happ]
            exact key_mem_append (by simp)
          · exact hcov x hx1
      · -- known language: try to pair
        rcases hftp : find_translation_pair r.filename r.language
            ((all.filter (candidateFilter processed r)).map
              (fun c => (c.filename, c.language, find_base_name c.filename))) fd with _ | m
        · -- no match (also covers the empty-candidates early exit)
          have hstep : findPairsAux all fd (r :: rest) processed assigned counter
              = findPairsAux all fd rest (r.filename :: processed)
                  ((r.filename, "-") :: assigned) counter := by
            rw [findPairsAux, hproc]
            simp only [Bool.false_eq_true, if_false, if_neg hunk]
            by_cases hemp : (all.filter (candidateFilter processed r)).isEmpty
            · rw [if_pos hemp]
            · rw [if_neg hemp, hftp]
          have hinv' := C2Inv_dash hinv hr hnotproc
          obtain ⟨cF, pF, pre, hle, happ, hinvF, hcov⟩ :=
            findPairsAux_inv all fd rest (r.filename :: processed)
              ((r.filename, "-") :: assigned) counter hsub' hinv'
          refine ⟨cF, pF, pre ++ [(r.filename, "-")], hle, ?_, by rw [hstep]; exact hinvF, ?_⟩
          · rw [hstep, happ]
            simp
          · intro x hx
            rw [hstep]
            rcases List.mem_cons.mp hx with rfl | hx1
            · rw [happ]
              exact key_mem_append (by simp)
            · exact hcov x hx1
        · -- a match m
          have hemp : (all.filter (candidateFilter processed r)).isEmpty = false := by
            cases hemp : (all.filter (candidateFilter processed r)).isEmpty
            · rfl
            · rw [List.isEmpty_iff] at hemp
              rw [hemp] at hftp
              simp [find_translation_pair, ftpGo] at hftp
          have hstep : findPairsAux all fd (r :: rest) processed assigned counter
              = findPairsAux all fd rest (m :: r.filename :: processed)
                  ((m, natToStr counter) :: (r.filename, natToStr counter) :: assigned)
                  (counter + 1) := by
            rw [findPairsAux, hproc]
            simp only [Bool.false_eq_true, if_false, if_neg hunk]
            rw [if_neg (by rw [hemp]; exact fun h => Bool.noConfusion h), hftp]
          -- facts about the matched row
          have hftp' : ftpGo (find_base_name r.filename) r.language
              ((all.filter (candidateFilter processed r)).map
                (fun c => (c.filename, c.language, find_base_name c.filename))) = some m := by
            rw [find_translation_pair] at hftp
            exact hftp
          obtain ⟨c, hc, hc1, hc2⟩ := ftpGo_some _ _ hftp'
          obtain ⟨mrow, hmrow, hmc⟩ := List.mem_map.mp hc
          have hmrow' := List.mem_filter.mp hmrow
          have hmfacts := hmrow'.2
          rw [candidateFilter] at hmfacts
          simp only [Bool.and_eq_true, Bool.not_eq_true', bne_iff_ne, ne_eq] at hmfacts
          obtain ⟨⟨⟨hA, hmne⟩, hmlang⟩, hmunk⟩ := hmfacts
          have hmname : mrow.filename = m := by
            rw [← hmc] at hc1
            exact hc1
          have hmnotproc : mrow.filename ∉ processed := by
            intro hmem
            have hc := contains_iff_mem.mpr hmem
            rw [hA] at hc
            cases hc
          have hinv' : C2Inv all (m :: r.filename :: processed)
              ((m, natToStr counter) :: (r.filename, natToStr counter) :: assigned)
              (counter + 1) := by
            rw [← hmname]
            exact C2Inv_pair hinv hr hmrow'.1 hnotproc hmnotproc hmne hmlang hunk hmunk
          obtain ⟨cF, pF, pre, hle, happ, hinvF, hcov⟩ :=
            findPairsAux_inv all fd rest (m :: r.filename :: processed)
              ((m, natToStr counter) :: (r.filename, natToStr counter) :: assigned)
              (counter + 1) hsub' hinv'
          refine ⟨cF, pF, pre ++ [(m, natToStr counter), (r.filename, natToStr counter)],
            by omega, ?_, by rw [hstep]; exact hinvF, ?_⟩
          · rw [hstep, happ]
            simp
          · intro x hx
            rw [hstep]
            rcases List.mem_cons.mp hx with rfl | hx1
            · rw [happ]
              exact key_mem_append (by simp)
            · exact hcov x hx1
    · -- already processed: skip
      have hstep : findPairsAux all fd (r :: rest) processed assigned counter
          = findPairsAux all fd rest processed assigned counter := by
        rw [findPairsAux, hproc]
        simp
      obtain ⟨cF, pF, pre, hle, happ, hinvF, hcov⟩ :=
        findPairsAux_inv all fd rest processed assigned counter hsub' hinv
      refine ⟨cF, pF, pre, hle, by rw [hstep]; exact happ, by rw [hstep]; exact hinvF, ?_⟩
      intro x hx
      rw [hstep]
      rcases List.mem_cons.mp hx with rfl | hx1
      · have : x.filename ∈ assigned.map Prod.fst := by
          rw [← hinv.procEq]
          exact contains_iff_mem.mp hproc
        rw [happ]
        exact key_mem_append this
      · exact hcov x hx1

/-- Filtering a duplicate-free list with a uniquely-satisfied predicate. -/
theorem filter_singleton_of_unique {α : Type} (p : α → Bool) (l : List α) : l.Nodup →
    ∀ x : α, x ∈ l → p x = true → (∀ y ∈ l, p y = true → y = x) → l.filter p = [x] := by
  induction l with
  | nil =>
    intro _ x hx
    simp at hx
  | cons c cs ih =>
    intro hnd x hx hpx huniq
    rw [List.nodup_cons] at hnd
    rw [List.filter_cons]
    rcases List.mem_cons.mp hx with rfl | hx1
    · rw [if_pos hpx]
      have h0 : cs.filter p = [] := by
        rw [List.filter_eq_nil_iff]
        intro y hy hpy
        rw [huniq y (List.mem_cons_of_mem _ hy) hpy] at hy
        exact hnd.1 hy
      rw [h0]
    · have hcx : c ≠ x := fun h => hnd.1 (h ▸ hx1)
      have hpc : p c = false := by
        cases hpc : p c
        · rfl
        · exact absurd (huniq c (List.mem_cons_self _ _) hpc) hcx
      rw [if_neg (by simp [hpc])]
      exact ih hnd.2 x hx1 hpx (fun y hy hpy => huniq y (List.mem_cons_of_mem _ hy) hpy)

/-- Filtering a duplicate-free list with a predicate satisfied exactly twice. -/
theorem filter_pair_of_unique {α : Type} (p : α → Bool) (l : List α) : l.Nodup →
    ∀ a b : α, a ≠ b → a ∈ l → b ∈ l → p a = true → p b = true →
      (∀ y ∈ l, p y = true → y = a ∨ y = b) →
      l.filter p = [a, b] ∨ l.filter p = [b, a] := by
  induction l with
  | nil =>
    intro _ a b _ ha
    simp at ha
  | cons x xs ih =>
    intro hnd a b hab ha hb hpa hpb huniq
    rw [List.nodup_cons] at hnd
    rw [List.filter_cons]
    cases hpx : p x
    · rw [if_neg (by simp [hpx])]
      have hxa : x ≠ a := fun h => by
        rw [h, hpa] at hpx
        cases hpx
      have hxb : x ≠ b := fun h => by
        rw [h, hpb] at hpx
        cases hpx
      have ha1 : a ∈ xs := by
        rcases List.mem_cons.mp ha with rfl | h1
        · exact absurd rfl hxa
        · exact h1
      have hb1 : b ∈ xs := by
        rcases List.mem_cons.mp hb with rfl | h1
        · exact absurd rfl hxb
        · exact h1
      exact ih hnd.2 a b hab ha1 hb1 hpa hpb
        (fun y hy hpy => huniq y (List.mem_cons_of_mem _ hy) hpy)
    · rw [if_pos rfl]
      rcases huniq x (List.mem_cons_self _ _) hpx with rfl | rfl
      · left
        have hb1 : b ∈ xs := by
          rcases List.mem_cons.mp hb with rfl | h1
          · exact absurd rfl (Ne.symm hab)
          · exact h1
        have : xs.filter p = [b] := by
          refine filter_singleton_of_unique p xs hnd.2 b hb1 hpb ?_
          intro y hy hpy
          rcases huniq y (List.mem_cons_of_mem _ hy) hpy with rfl | rfl
          · exact absurd hy hnd.1
          · rfl
        rw [this]
      · right
        have ha1 : a ∈ xs := by
          rcases List.mem_cons.mp ha with rfl | h1
          · exact absurd rfl hab
          · exact h1
        have : xs.filter p = [a] := by
          refine filter_singleton_of_unique p xs hnd.2 a ha1 hpa ?_
          intro y hy hpy
          rcases huniq y (List.mem_cons_of_mem _ hy) hpy with rfl | rfl
          · rfl
          · exact absurd hy hnd.1
        rw [this]

/-- Generic injectivity on a list whose image is duplicate-free. -/
theorem map_nodup_inj {α β : Type} {f : α → β} {l : List α}
    (hnd : (l.map f).Nodup) {a b : α}
    (ha : a ∈ l) (hb : b ∈ l) (hf : f a = f b) : a = b := by
  induction l with
  | nil => simp at ha
  | cons x rest ih =>
    rw [List.map_cons, List.nodup_cons] at hnd
    rcases List.mem_cons.mp ha with rfl | ha1
    · rcases List.mem_cons.mp hb with rfl | hb1
      · rfl
      · exact absurd (List.mem_map.mpr ⟨b, hb1, hf.symm⟩) hnd.1
    · rcases List.mem_cons.mp hb with rfl | hb1
      · exact absurd (List.mem_map.mpr ⟨a, ha1, hf⟩) hnd.1
      · exact ih hnd.2 ha1 hb1

/-- Pairwise relations survive `filterMap` when the mapping respects them. -/
theorem pairwise_filterMap {α β : Type} {R : α → α → Prop} {S : β → β → Prop} {f : α → Option β}
    (hf : ∀ a b x y, R a b → f a = some x → f b = some y → S x y) :
    ∀ {l : List α}, l.Pairwise R → (l.filterMap f).Pairwise S
  | [], _ => by simp
  | a :: rest, h => by
    rw [List.pairwise_cons] at h
    rw [List.filterMap_cons]
    rcases hfa : f a with _ | x
    · exact pairwise_filterMap hf h.2
    · refine List.Pairwise.cons ?_ (pairwise_filterMap hf h.2)
      intro y hy
      rcases List.mem_filterMap.mp hy with ⟨b, hb, hfb⟩
      exact hf a b x y (h.1 b hb) hfa hfb

/-- **C3** (corrected by `C3_counterexample`, amendment proved here).
A pair member takes the source role exactly when its upper-cased language is
one of the four codes `EN`, `EN-GB`, `EN-US`, `EN-WW` (not any string merely
starting with "EN"), and the target role otherwise; a `DocumentPair`
materializes for a pair id exactly when that id's group contains both a
document with a language in that fixed tuple and a document with a language
outside it. -/
theorem C3_paired_documents_roles (ds : DocumentSet) :
    (∀ pr ∈ ds.paired_documents,
        isSourceLang pr.source.language = true ∧ isSourceLang pr.target.language = false)
    ∧ (∀ pid : String,
        (∃ pr ∈ ds.paired_documents, pr.pair_id = pid) ↔
          ((∃ d ∈ ds.documents, d.pair_id = some pid ∧ pid ≠ "-"
              ∧ isSourceLang d.language = true)
            ∧ (∃ d ∈ ds.documents, d.pair_id = some pid ∧ pid ≠ "-"
              ∧ isSourceLang d.language = false))) := by
  obtain ⟨hnd, hok, hsrc, htgt⟩ := SlotsInv_buildPairs ds.documents
  constructor
  · intro pr hpr
    have h := paired_documents_facts hpr
    exact ⟨h.2.2.2.1, h.2.2.2.2.2.2⟩
  · intro pid
    constructor
    · rintro ⟨pr, hpr, rfl⟩
      have hmem := mem_paired_documents.mp hpr
      exact ⟨(hsrc pr.pair_id).mp ⟨_, hmem, rfl, by simp⟩,
        (htgt pr.pair_id).mp ⟨_, hmem, rfl, by simp⟩⟩
    · rintro ⟨h1, h2⟩
      obtain ⟨e1, he1, hk1, hs1⟩ := (hsrc pid).mpr h1
      obtain ⟨e2, he2, hk2, hs2⟩ := (htgt pid).mpr h2
      obtain ⟨k1, v1⟩ := e1
      obtain ⟨k2, v2⟩ := e2
      simp only at hk1 hk2 hs1 hs2
      rw [hk1] at he1
      rw [hk2] at he2
      have hv : v1 = v2 := entry_unique hnd he1 he2
      subst hv
      rcases ho1 : v1.1 with _ | a
      · rw [ho1] at hs1
        simp at hs1
      rcases ho2 : v1.2 with _ | b
      · rw [ho2] at hs2
        simp at hs2
      refine ⟨⟨pid, a, b⟩, mem_paired_documents.mpr ?_, rfl⟩
      have : v1 = (some a, some b) := by
        obtain ⟨x, y⟩ := v1
        simp only at ho1 ho2
        rw [ho1, ho2]
      rw [this] at he1
      exact he1

/-- **C3** counterexample to the claim as stated: the language `EN-AU` starts
with "EN" case-insensitively, shares pair id "1" with a `DE` document, and the
claim therefore predicts a materialized pair with the `EN-AU` document as
source — but the code's fixed tuple does not contain `EN-AU`, both documents
land in the target slot, and no pair materializes at all. -/
theorem C3_counterexample :
    specIsEnglishVariant "EN-AU" = true
    ∧ specIsEnglishVariant "DE" = false
    ∧ isSourceLang "EN-AU" = false
    ∧ (DocumentSet.paired_documents
        ⟨"client", "sub",
          [⟨"a.txt", "", "EN-AU", some "1", 0⟩, ⟨"b.txt", "", "DE", some "1", 0⟩], 0⟩) = [] := by
  exact ⟨by decide, by decide, by decide, by decide⟩

/-- **C4** (corrected by `C4_counterexample`, amendment proved here).
`paired_documents` is sorted by pair id in Python's code-point string order
(lexicographically), which is not numeric order on the ids "1", "2", ...
produced by the pairing algorithm. -/
theorem C4_paired_documents_sorted (ds : DocumentSet) :
    ds.paired_documents.Pairwise (fun a b => strLtB b.pair_id a.pair_id = false) := by
  refine pairwise_filterMap ?_ (pairwise_sortByKey (buildPairs ds.documents))
  intro a b x y hR hfa hfb
  rw [slotsToPair_eq_some] at hfa hfb
  subst hfa
  subst hfb
  simpa using hR

/-- **C4** counterexample to the claim as stated: on a document set carrying
the pairing algorithm's sequential ids "1" ... "10", the view is sorted as
strings — the pair with id "10" precedes the pair with id "2", so the order
is not numerically ascending. -/
theorem C4_counterexample :
    (DocumentSet.paired_documents
      ⟨"c", "s",
      [⟨"s1a", "", "EN", some "1", 0⟩,
       ⟨"s1b", "", "DE", some "1", 0⟩,
       ⟨"s2a", "", "EN", some "2", 0⟩,
       ⟨"s2b", "", "DE", some "2", 0⟩,
       ⟨"s3a", "", "EN", some "3", 0⟩,
       ⟨"s3b", "", "DE", some "3", 0⟩,
       ⟨"s4a", "", "EN", some "4", 0⟩,
       ⟨"s4b", "", "DE", some "4", 0⟩,
       ⟨"s5a", "", "EN", some "5", 0⟩,
       ⟨"s5b", "", "DE", some "5", 0⟩,
       ⟨"s6a", "", "EN", some "6", 0⟩,
       ⟨"s6b", "", "DE", some "6", 0⟩,
       ⟨"s7a", "", "EN", some "7", 0⟩,
       ⟨"s7b", "", "DE", some "7", 0⟩,
       ⟨"s8a", "", "EN", some "8", 0⟩,
       ⟨"s8b", "", "DE", some "8", 0⟩,
       ⟨"s9a", "", "EN", some "9", 0⟩,
       ⟨"s9b", "", "DE", some "9", 0⟩,
       ⟨"s10a", "", "EN", some "10", 0⟩,
       ⟨"s10b", "", "DE", some "10", 0⟩], 0⟩).map DocumentPair.pair_id
      = ["1", "10", "2", "3", "4", "5", "6", "7", "8", "9"] := by
  decide

/-- **C10**: with pairwise-distinct filenames, the two derived views
partition the document set — every document is source or target of exactly
one pair in `paired_documents`, or appears exactly once in
`unpaired_documents`, never both. -/
theorem C10_views_partition (ds : DocumentSet)
    (hnd : (ds.documents.map Document.filename).Nodup) :
    ∀ d ∈ ds.documents,
      (ds.paired_documents.countP (fun pr =>
            pr.source.filename == d.filename || pr.target.filename == d.filename) = 1
        ∧ ds.unpaired_documents.countP (fun x => x.filename == d.filename) = 0)
      ∨ (ds.paired_documents.countP (fun pr =>
            pr.source.filename == d.filename || pr.target.filename == d.filename) = 0
        ∧ ds.unpaired_documents.countP (fun x => x.filename == d.filename) = 1) := by
  intro d hd
  have hpdnodup : ds.paired_documents.Nodup := (nodup_paired_pairIds ds).of_map _
  have hdocnodup : ds.documents.Nodup := hnd.of_map _
  -- extract, for a pair containing the filename, the witnessing document
  have key : ∀ pr ∈ ds.paired_documents,
      (pr.source.filename = d.filename ∨ pr.target.filename = d.filename) →
      ∃ w ∈ ds.documents, w.filename = d.filename ∧ w.pair_id = some pr.pair_id := by
    intro pr hpr hor
    have hf := paired_documents_facts hpr
    rcases hor with h | h
    · exact ⟨pr.source, hf.2.1, h, hf.2.2.1⟩
    · exact ⟨pr.target, hf.2.2.2.2.1, h, hf.2.2.2.2.2.1⟩
  by_cases hm : ∃ pr ∈ ds.paired_documents,
      pr.source.filename = d.filename ∨ pr.target.filename = d.filename
  · left
    obtain ⟨pr0, hpr0, hor0⟩ := hm
    constructor
    · refine countP_one_of_unique _ _ hpdnodup pr0 hpr0 ?_ ?_
      · rcases hor0 with h | h <;> simp [h]
      · intro y hy hpy
        have hory : y.source.filename = d.filename ∨ y.target.filename = d.filename := by
          rcases Bool.or_eq_true_iff.mp hpy with h | h
          · exact Or.inl (by simpa using h)
          · exact Or.inr (by simpa using h)
        obtain ⟨w, hw, hwf, hwp⟩ := key y hy hory
        obtain ⟨w0, hw0, hwf0, hwp0⟩ := key pr0 hpr0 hor0
        have hww : w = w0 := filename_inj hnd hw hw0 (by rw [hwf, hwf0])
        have hid : y.pair_id = pr0.pair_id := by
          have h2 : some y.pair_id = some pr0.pair_id := by
            rw [← hwp, hww, hwp0]
          exact Option.some.inj h2
        exact map_nodup_inj (nodup_paired_pairIds ds) hy hpr0 hid
    · refine countP_zero_of_none ?_
      intro y hy
      rw [DocumentSet.unpaired_documents, List.mem_filter] at hy
      cases hby : y.filename == d.filename
      · rfl
      · exfalso
        have hyf : y.filename = d.filename := by simpa using hby
        have hin : y.filename ∈ pairedFilenames ds := by
          rw [hyf]
          exact (mem_pairedFilenamesList _).mpr ⟨pr0, hpr0, by
            rcases hor0 with h | h
            · exact Or.inl h
            · exact Or.inr h⟩
        have := hy.2
        simp only [Bool.not_eq_true'] at this
        rw [pairedFilenames] at hin
        have hcon : (pairedFilenames ds).contains y.filename = true := by
          rw [pairedFilenames]
          exact List.elem_iff.mpr hin
        rw [hcon] at this
        cases this
  · right
    constructor
    · refine countP_zero_of_none ?_
      intro y hy
      cases hpy : (y.source.filename == d.filename || y.target.filename == d.filename)
      · rfl
      · exfalso
        refine hm ⟨y, hy, ?_⟩
        rcases Bool.or_eq_true_iff.mp hpy with h | h
        · exact Or.inl (by simpa using h)
        · exact Or.inr (by simpa using h)
    · have hdnotin : d.filename ∉ pairedFilenames ds := by
        intro hin
        exact hm ((mem_pairedFilenamesList _).mp hin)
      have hdun : d ∈ ds.unpaired_documents := by
        rw [DocumentSet.unpaired_documents, List.mem_filter]
        refine ⟨hd, ?_⟩
        simp only [Bool.not_eq_true']
        cases hc : (pairedFilenames ds).contains d.filename
        · rfl
        · exact absurd (List.elem_iff.mp hc) hdnotin
      refine countP_one_of_unique _ _ (hdocnodup.filter _) d hdun (by simp) ?_
      intro y hy hpy
      rw [DocumentSet.unpaired_documents, List.mem_filter] at hy
      exact filename_inj hnd hy.1 hd (by simpa using hpy)

/-- Witness for **C10** at a concrete document set (one EN/DE pair and one
unpaired FR document, pairwise-distinct filenames). -/
theorem C10_views_partition_witness :
    ((([⟨"card_EN.txt", "", "EN", some "1", 0⟩, ⟨"card_DE.txt", "", "DE", some "1", 0⟩,
        ⟨"u.txt", "", "FR", none, 0⟩] : List Document).map Document.filename).Nodup)
    ∧ ∀ d ∈ (⟨"c", "s",
        [⟨"card_EN.txt", "", "EN", some "1", 0⟩, ⟨"card_DE.txt", "", "DE", some "1", 0⟩,
         ⟨"u.txt", "", "FR", none, 0⟩], 0⟩ : DocumentSet).documents,
      ((DocumentSet.paired_documents ⟨"c", "s",
          [⟨"card_EN.txt", "", "EN", some "1", 0⟩, ⟨"card_DE.txt", "", "DE", some "1", 0⟩,
           ⟨"u.txt", "", "FR", none, 0⟩], 0⟩).countP (fun pr =>
            pr.source.filename == d.filename || pr.target.filename == d.filename) = 1
        ∧ (DocumentSet.unpaired_documents ⟨"c", "s",
          [⟨"card_EN.txt", "", "EN", some "1", 0⟩, ⟨"card_DE.txt", "", "DE", some "1", 0⟩,
           ⟨"u.txt", "", "FR", none, 0⟩], 0⟩).countP
            (fun x => x.filename == d.filename) = 0)
      ∨ ((DocumentSet.paired_documents ⟨"c", "s",
          [⟨"card_EN.txt", "", "EN", some "1", 0⟩, ⟨"card_DE.txt", "", "DE", some "1", 0⟩,
           ⟨"u.txt", "", "FR", none, 0⟩], 0⟩).countP (fun pr =>
            pr.source.filename == d.filename || pr.target.filename == d.filename) = 0
        ∧ (DocumentSet.unpaired_documents ⟨"c", "s",
          [⟨"card_EN.txt", "", "EN", some "1", 0⟩, ⟨"card_DE.txt", "", "DE", some "1", 0⟩,
           ⟨"u.txt", "", "FR", none, 0⟩], 0⟩).countP
            (fun x => x.filename == d.filename) = 1) :=
  ⟨by decide, C10_views_partition _ (by decide)⟩

/-- **C5**: `parse_batch` is total (the embedding returns a value for every
response text — nothing is raised), yields exactly one entry per expected
subtype in order, computes each entry from the response text and that
subtype's name alone (so other subtypes' blocks cannot affect it), and maps a
subtype whose `## SUBTYPE:` block is absent to the empty-content result. -/
theorem C5_parse_batch_missing_block (response_text : String)
    (document_sets : List DocumentSet)
    (hnd : (document_sets.map DocumentSet.subtype).Nodup) :
    ((parse_batch response_text document_sets).map Prod.fst
        = document_sets.map DocumentSet.subtype)
    ∧ (∀ ds ∈ document_sets,
        (parse_batch response_text document_sets).lookup ds.subtype
          = some (parseBatchSubtype response_text ds.subtype))
    ∧ (∀ ds ∈ document_sets,
        searchSubtypeSection ds.subtype.data response_text.data = none →
          (parse_batch response_text document_sets).lookup ds.subtype
            = some ⟨"", "", 0, 0⟩) := by
  have hmap : (parse_batch response_text document_sets).map Prod.fst
      = document_sets.map DocumentSet.subtype := by
    rw [parse_batch, List.map_map]
    rfl
  have hlook : ∀ ds ∈ document_sets,
      (parse_batch response_text document_sets).lookup ds.subtype
        = some (parseBatchSubtype response_text ds.subtype) := by
    intro ds hds
    refine lookup_eq_of_mem_nodup ?_ ?_
    · rw [parse_batch]
      exact List.mem_map.mpr ⟨ds, hds, rfl⟩
    · rw [hmap]
      exact hnd
  refine ⟨hmap, hlook, ?_⟩
  intro ds hds hnone
  rw [hlook ds hds, parseBatchSubtype, hnone]

/-- Witness for **C5**: a batch response holding only an `alpha` block, parsed
against the subtypes `alpha` and `beta`; `beta`'s block is absent and its
entry is the empty-content result. -/
theorem C5_parse_batch_missing_block_witness :
    ((([⟨"c", "alpha", [], 0⟩, ⟨"c", "beta", [], 0⟩] : List DocumentSet).map
        DocumentSet.subtype).Nodup)
    ∧ ((parse_batch "## SUBTYPE: alpha\n### CLIENT_RULES\n```javascript\nfoo()\n```\n### GUIDELINES\nbar"
          [⟨"c", "alpha", [], 0⟩, ⟨"c", "beta", [], 0⟩]).map Prod.fst
        = [⟨"c", "alpha", [], 0⟩, ⟨"c", "beta", [], 0⟩].map DocumentSet.subtype)
    ∧ (∀ ds ∈ ([⟨"c", "alpha", [], 0⟩, ⟨"c", "beta", [], 0⟩] : List DocumentSet),
        (parse_batch "## SUBTYPE: alpha\n### CLIENT_RULES\n```javascript\nfoo()\n```\n### GUIDELINES\nbar"
            [⟨"c", "alpha", [], 0⟩, ⟨"c", "beta", [], 0⟩]).lookup ds.subtype
          = some (parseBatchSubtype
              "## SUBTYPE: alpha\n### CLIENT_RULES\n```javascript\nfoo()\n```\n### GUIDELINES\nbar"
              ds.subtype))
    ∧ (∀ ds ∈ ([⟨"c", "alpha", [], 0⟩, ⟨"c", "beta", [], 0⟩] : List DocumentSet),
        searchSubtypeSection ds.subtype.data
            ("## SUBTYPE: alpha\n### CLIENT_RULES\n```javascript\nfoo()\n```\n### GUIDELINES\nbar" : String).data = none →
          (parse_batch "## SUBTYPE: alpha\n### CLIENT_RULES\n```javascript\nfoo()\n```\n### GUIDELINES\nbar"
              [⟨"c", "alpha", [], 0⟩, ⟨"c", "beta", [], 0⟩]).lookup ds.subtype
            = some ⟨"", "", 0, 0⟩) := by
  refine ⟨by decide, ?_⟩
  exact C5_parse_batch_missing_block _ _ (by decide)

/-- **C2**: after `find_pairs` runs on a table of rows with pairwise-distinct
filenames, every row's pair id is either the sentinel `"-"` or one of the ids
`"1" ... "k"`; each such id is carried by exactly two rows, whose languages
differ and are both not `"UNKNOWN"`; and in order of assignment the
non-sentinel ids are the consecutive integers starting at 1, rendered as
strings, each written to the two rows of its pair. -/
theorem C2_find_pairs_invariant (rows : List FileRow) (file_data : List (String × String))
    (hnd : (rows.map FileRow.filename).Nodup) :
    ∃ k : Nat,
      (∀ x ∈ find_pairs rows file_data,
          x.2 = "-" ∨ ∃ n, 1 ≤ n ∧ n ≤ k ∧ x.2 = natToStr n)
        ∧ (∀ n, 1 ≤ n → n ≤ k →
            ∃ a b, (find_pairs rows file_data).filter (fun y => y.2 == natToStr n) = [a, b]
              ∧ a.1.filename ≠ b.1.filename ∧ a.1.language ≠ b.1.language
              ∧ a.1.language ≠ "UNKNOWN" ∧ b.1.language ≠ "UNKNOWN")
        ∧ (((findPairsAux rows file_data rows [] [] 1).map Prod.snd).filter
              (fun q => q != "-")).reverse = ascIds k := by
  have hinv0 : C2Inv rows [] [] 1 := by
    refine ⟨rfl, Nat.le_refl 1, by simp, by simp, ?_, rfl, by simp⟩
    intro n h1 h2
    omega
  obtain ⟨cF, pF, pre, hle, happ, hinvF, hcov⟩ :=
    findPairsAux_inv rows file_data rows [] [] 1 (fun r hr => hr) hinv0
  have hrownd : rows.Nodup := hnd.of_map _
  refine ⟨cF - 1, ?_, ?_, ?_⟩
  · intro x hx
    simp only [find_pairs, List.mem_map] at hx
    obtain ⟨r, hrmem, rfl⟩ := hx
    rcases hl : (findPairsAux rows file_data rows [] [] 1).lookup r.filename with _ | q
    · left
      simp [hl]
    · have hmem := lookup_mem hl
      rcases hinvF.idsShape _ hmem with h1 | ⟨n, hn1, hn2, hn3⟩
      · left
        simp only [hl, Option.getD_some]
        exact h1
      · right
        refine ⟨n, hn1, by omega, ?_⟩
        simp only [hl, Option.getD_some]
        exact hn3
  · intro n h1 h2
    have h2' : n < cF := by omega
    obtain ⟨fa, fb, ra, rb, hfil, hfab, hra, hrb, hraf, hrbf, hlang, hunka, hunkb⟩ :=
      hinvF.pairsExact n h1 h2'
    have hfaA : (fa, natToStr n) ∈ findPairsAux rows file_data rows [] [] 1 := by
      have hm : (fa, natToStr n)
          ∈ (findPairsAux rows file_data rows [] [] 1).filter (fun e => e.2 == natToStr n) := by
        rw [hfil]
        exact List.mem_cons_self _ _
      exact (List.mem_filter.mp hm).1
    have hfbA : (fb, natToStr n) ∈ findPairsAux rows file_data rows [] [] 1 := by
      have hm : (fb, natToStr n)
          ∈ (findPairsAux rows file_data rows [] [] 1).filter (fun e => e.2 == natToStr n) := by
        rw [hfil]
        exact List.mem_cons_of_mem _ (List.mem_cons_self _ _)
      exact (List.mem_filter.mp hm).1
    have hlookfa := lookup_eq_of_mem_nodup hfaA hinvF.keysNodup
    have hlookfb := lookup_eq_of_mem_nodup hfbA hinvF.keysNodup
    have hfpnd : (find_pairs rows file_data).Nodup := by
      simp only [find_pairs]
      exact hrownd.map (fun a b h => congrArg Prod.fst h)
    have hamem : (ra, natToStr n) ∈ find_pairs rows file_data := by
      simp only [find_pairs, List.mem_map]
      refine ⟨ra, hra, ?_⟩
      rw [hraf, hlookfa]
      rfl
    have hbmem : (rb, natToStr n) ∈ find_pairs rows file_data := by
      simp only [find_pairs, List.mem_map]
      refine ⟨rb, hrb, ?_⟩
      rw [hrbf, hlookfb]
      rfl
    have hrab : ra ≠ rb := by
      intro h
      rw [h, hrbf] at hraf
      exact hfab hraf.symm
    have hpairne : ((ra, natToStr n) : FileRow × String) ≠ (rb, natToStr n) := by
      intro h
      exact hrab (congrArg Prod.fst h)
    have huniq : ∀ y ∈ find_pairs rows file_data, (y.2 == natToStr n) = true →
        y = (ra, natToStr n) ∨ y = (rb, natToStr n) := by
      intro y hy hpy
      simp only [find_pairs, List.mem_map] at hy
      obtain ⟨r, hrmem, rfl⟩ := hy
      simp only [beq_iff_eq] at hpy
      rcases hl : (findPairsAux rows file_data rows [] [] 1).lookup r.filename with _ | q
      · rw [hl] at hpy
        simp only [Option.getD_none] at hpy
        exact absurd hpy.symm (natToStr_ne_dash n)
      · rw [hl] at hpy
        simp only [Option.getD_some] at hpy
        subst hpy
        have hrmemA := lookup_mem hl
        have hrfil : (r.filename, natToStr n)
            ∈ (findPairsAux rows file_data rows [] [] 1).filter
                (fun e => e.2 == natToStr n) := by
          rw [List.mem_filter]
          exact ⟨hrmemA, by simp⟩
        rw [hfil] at hrfil
        rcases List.mem_cons.mp hrfil with heq | hrfil2
        · left
          have hf : r.filename = fa := congrArg Prod.fst heq
          have : r = ra := map_nodup_inj hnd hrmem hra (by rw [hf, hraf])
          simp [this]
        · rcases List.mem_singleton.mp hrfil2 with heq
          right
          have hf : r.filename = fb := congrArg Prod.fst heq
          have : r = rb := map_nodup_inj hnd hrmem hrb (by rw [hf, hrbf])
          simp [this]
    have hres := filter_pair_of_unique (fun y => y.2 == natToStr n)
      (find_pairs rows file_data) hfpnd (ra, natToStr n) (rb, natToStr n)
      hpairne hamem hbmem (by simp) (by simp) huniq
    rcases hres with h | h
    · exact ⟨(ra, natToStr n), (rb, natToStr n), h, by
        simp only
        rw [hraf, hrbf]
        exact hfab, hlang, hunka, hunkb⟩
    · exact ⟨(rb, natToStr n), (ra, natToStr n), h, by
        simp only
        rw [hraf, hrbf]
        exact fun hc => hfab hc.symm, fun hc => hlang hc.symm, hunkb, hunka⟩
  · rw [hinvF.chron, dupIds_reverse]

/-- Witness for **C2** at a concrete table: an EN/DE pair plus one file with
unknown language, pairwise-distinct filenames. -/
theorem C2_find_pairs_invariant_witness :
    ((([⟨"card_EN.txt", "EN"⟩, ⟨"card_DE.txt", "DE"⟩, ⟨"x.txt", "UNKNOWN"⟩] : List FileRow)
        |>.map FileRow.filename).Nodup)
    ∧ ∃ k : Nat,
      (∀ x ∈ find_pairs [⟨"card_EN.txt", "EN"⟩, ⟨"card_DE.txt", "DE"⟩, ⟨"x.txt", "UNKNOWN"⟩] [],
          x.2 = "-" ∨ ∃ n, 1 ≤ n ∧ n ≤ k ∧ x.2 = natToStr n)
        ∧ (∀ n, 1 ≤ n → n ≤ k →
            ∃ a b, (find_pairs [⟨"card_EN.txt", "EN"⟩, ⟨"card_DE.txt", "DE"⟩,
                  ⟨"x.txt", "UNKNOWN"⟩] []).filter (fun y => y.2 == natToStr n) = [a, b]
              ∧ a.1.filename ≠ b.1.filename ∧ a.1.language ≠ b.1.language
              ∧ a.1.language ≠ "UNKNOWN" ∧ b.1.language ≠ "UNKNOWN")
        ∧ (((findPairsAux [⟨"card_EN.txt", "EN"⟩, ⟨"card_DE.txt", "DE"⟩, ⟨"x.txt", "UNKNOWN"⟩]
                [] [⟨"card_EN.txt", "EN"⟩, ⟨"card_DE.txt", "DE"⟩, ⟨"x.txt", "UNKNOWN"⟩]
                [] [] 1).map Prod.snd).filter (fun q => q != "-")).reverse = ascIds k :=
  ⟨by decide, C2_find_pairs_invariant _ _ (by decide)⟩

/-- **C1** (corrected by `C1_counterexample`, amendment proved here).
`find_translation_pair` returns the first candidate in list order whose
language differs from the query's language AND whose base name is non-empty
and equal to the non-empty `find_base_name(filename)`; it returns `none` when
no such candidate exists (in particular whenever `find_base_name(filename)`
is empty).  It never returns a candidate whose language equals the query's
language. -/
theorem C1_find_translation_pair_first_match (filename language : String)
    (candidates : List (String × String × String)) (file_contents : List (String × String)) :
    (find_translation_pair filename language candidates file_contents =
      (candidates.find? (fun c =>
        !(c.2.1 == language) && !(find_base_name filename == "")
          && !(c.2.2 == "") && (find_base_name filename == c.2.2))).map (·.1))
    ∧ (∀ fn, find_translation_pair filename language candidates file_contents = some fn →
        ∃ c ∈ candidates, c.1 = fn ∧ c.2.1 ≠ language) := by
  constructor
  · exact ftpGo_eq_find? (find_base_name filename) language candidates
  · intro fn h
    exact ftpGo_some (find_base_name filename) language h

/-- **C1** counterexample to the claim as stated: for the query
`("EN.txt", "EN")` the base name `find_base_name "EN.txt"` is the empty
string, and the candidate `("DE.txt", "DE", "")` has a different language and
a base name exactly equal to it — yet `find_translation_pair` returns `none`
(the code additionally requires both base names to be non-empty), while the
spec-level first-match rule returns the candidate. -/
theorem C1_counterexample :
    find_base_name "EN.txt" = ""
    ∧ find_base_name "DE.txt" = ""
    ∧ find_translation_pair "EN.txt" "EN" [("DE.txt", "DE", "")] [] = none
    ∧ find_translation_pair_specVersion "EN.txt" "EN" [("DE.txt", "DE", "")] [] = some "DE.txt" := by
  refine ⟨by decide, by decide, by decide, by decide⟩

/-- **C7**: in batch extraction, after a successful call reporting usage
`(i, o)`, every subtype's final result carries `input_tokens = i / n` and
`output_tokens = o / n` (`n` the number of document sets, integer division);
in particular three subtypes with usage `(300, 90)` each get `(100, 30)`. -/
theorem C7_batch_usage_division :
    (∀ (response_text : String) (document_sets : List DocumentSet) (i o : Nat),
      ∀ e ∈ extract_batch_results response_text document_sets i o,
        e.2.input_tokens = i / document_sets.length
          ∧ e.2.output_tokens = o / document_sets.length)
    ∧ (extract_batch_results "" [⟨"c", "a", [], 0⟩, ⟨"c", "b", [], 0⟩, ⟨"c", "g", [], 0⟩] 300 90).map
        (fun e => (e.1, e.2.input_tokens, e.2.output_tokens))
      = [("a", 100, 30), ("b", 100, 30), ("g", 100, 30)] := by
  constructor
  · intro rt sets i o e he
    simp only [extract_batch_results, attachBatchUsage, List.mem_map] at he
    obtain ⟨x, _, rfl⟩ := he
    exact ⟨rfl, rfl⟩
  · decide

/-- **C9**: with `round_to_nickel = True`, `estimate_cost` returns the least
multiple of `0.05` that is at least the raw cost
`i/1e6 * input_price + o/1e6 * output_price`, for every model string
(unknown models fall back to the default pricing); in particular
`estimate_cost(1_000_000, 1_000_000)` under default Opus pricing has raw cost
`30.0`, which nickel-rounds to itself.  (Python floats are modelled as exact
rationals.) -/
theorem C9_estimate_cost_nickel_ceiling :
    (∀ (input_tokens output_tokens : Nat) (model : String),
      rawCost input_tokens output_tokens model
          ≤ estimate_cost input_tokens output_tokens model true
        ∧ (∃ k : ℤ, estimate_cost input_tokens output_tokens model true = (k : ℚ) * (5 / 100))
        ∧ ∀ j : ℤ, rawCost input_tokens output_tokens model ≤ (j : ℚ) * (5 / 100) →
            estimate_cost input_tokens output_tokens model true ≤ (j : ℚ) * (5 / 100))
    ∧ rawCost 1000000 1000000 "claude-opus-4-5-20251101" = 30
    ∧ estimate_cost 1000000 1000000 "claude-opus-4-5-20251101" true = 30 := by
  have hc : (0 : ℚ) < 5 / 100 := by norm_num
  refine ⟨fun i o m => ?_, ?_, ?_⟩
  · have hval : estimate_cost i o m true = (⌈rawCost i o m / (5 / 100)⌉ : ℚ) * (5 / 100) := by
      simp [estimate_cost]
    refine ⟨?_, ⟨⌈rawCost i o m / (5 / 100)⌉, hval⟩, ?_⟩
    · rw [hval]
      have h1 : rawCost i o m / (5 / 100) ≤ (⌈rawCost i o m / (5 / 100)⌉ : ℚ) := Int.le_ceil _
      calc rawCost i o m = (rawCost i o m / (5 / 100)) * (5 / 100) := by field_simp
        _ ≤ _ := mul_le_mul_of_nonneg_right h1 (le_of_lt hc)
    · intro j hj
      rw [hval]
      have h2 : rawCost i o m / (5 / 100) ≤ (j : ℚ) := by
        rw [div_le_iff₀ hc]
        exact hj
      have h3 : ⌈rawCost i o m / (5 / 100)⌉ ≤ j := Int.ceil_le.mpr h2
      exact mul_le_mul_of_nonneg_right (by exact_mod_cast h3) (le_of_lt hc)
  · norm_num [rawCost, lookupPricing, PRICING, List.lookup]
  · norm_num [estimate_cost, rawCost, lookupPricing, PRICING, List.lookup]

/-- C6: on a response text of the canonical shape
`### CLIENT_RULES\n```javascript\n X \n```\n### GUIDELINES\n Y`, with `X` and
`Y` free of code-fence markers and heading markers, `_parse_response` returns
exactly `(X.strip(), Y.strip())`. -/
theorem C6_parse_response_roundtrip (X Y : String)
    (hX1 : containsSub "```".data X.data = false)
    (hX2 : containsSub "##".data X.data = false)
    (hY1 : containsSub "```".data Y.data = false)
    (hY2 : containsSub "##".data Y.data = false) :
    parse_response ("### CLIENT_RULES\n```javascript\n" ++ X ++ "\n```\n### GUIDELINES\n" ++ Y)
      = (pyStrip X, pyStrip Y) := by
  have hTdata : ("### CLIENT_RULES\n```javascript\n" ++ X ++ "\n```\n### GUIDELINES\n" ++ Y).data
      = "### CLIENT_RULES\n```javascript\n".data
        ++ (X.data ++ ("\n```\n### GUIDELINES\n".data ++ Y.data)) := by
    simp [String.data_append]
  have hX1' : containsSub "```".data (X.data.dropWhile pyIsSpace) = false := by
    have hsplit : X.data.takeWhile pyIsSpace ++ X.data.dropWhile pyIsSpace = X.data :=
      List.takeWhile_append_dropWhile pyIsSpace X.data
    exact containsSub_false_suffix (by rw [hsplit]; exact hX1)
  have hY2' : containsSub "##".data (Y.data.dropWhile pyIsSpace) = false := by
    have hsplit : Y.data.takeWhile pyIsSpace ++ Y.data.dropWhile pyIsSpace = Y.data :=
      List.takeWhile_append_dropWhile pyIsSpace Y.data
    exact containsSub_false_suffix (by rw [hsplit]; exact hY2)
  have hYnl : containsSub "\n##".data (Y.data.dropWhile pyIsSpace) = false :=
    not_contains_nlhh hY2'
  -- the CLIENT_RULES matcher at position 0
  have h0 : stripPrefixCI "### CLIENT_RULES".data
      (("### CLIENT_RULES\n```javascript\n" ++ X ++ "\n```\n### GUIDELINES\n" ++ Y).data)
      = some ("\n```javascript\n".data
          ++ (X.data ++ ("\n```\n### GUIDELINES\n".data ++ Y.data))) := by
    rw [hTdata]
    rw [show ("### CLIENT_RULES\n```javascript\n".data)
        = "### CLIENT_RULES".data ++ "\n```javascript\n".data from rfl]
    rw [List.append_assoc]
    exact stripPrefixCI_self _ _
  have hr1 : ("\n```javascript\n".data
        ++ (X.data ++ ("\n```\n### GUIDELINES\n".data ++ Y.data))).dropWhile pyIsSpace
      = "```javascript\n".data ++ (X.data ++ ("\n```\n### GUIDELINES\n".data ++ Y.data)) := by
    rw [dropWhile_append₂,
      show ("\n```javascript\n".data).dropWhile pyIsSpace = "```javascript\n".data from by decide,
      if_neg (by decide)]
  have h2 : stripPrefixCI "```javascript".data
      ("```javascript\n".data ++ (X.data ++ ("\n```\n### GUIDELINES\n".data ++ Y.data)))
      = some ('\n' :: (X.data ++ ("\n```\n### GUIDELINES\n".data ++ Y.data))) :=
    stripPrefixCI_self "```javascript".data
      ('\n' :: (X.data ++ ("\n```\n### GUIDELINES\n".data ++ Y.data)))
  have hr3pre : ('\n' :: (X.data ++ ("\n```\n### GUIDELINES\n".data ++ Y.data))).dropWhile pyIsSpace
      = (X.data ++ ("\n```\n### GUIDELINES\n".data ++ Y.data)).dropWhile pyIsSpace := by
    rw [List.dropWhile_cons, if_pos (by decide)]
  -- the GUIDELINES matcher at its heading
  have hdwY : ('\n' :: Y.data).dropWhile pyIsSpace = Y.data.dropWhile pyIsSpace := by
    rw [List.dropWhile_cons, if_pos (by decide)]
  have hB2 : guidelinesHeadAt ("### GUIDELINES\n".data ++ Y.data) = some ('\n' :: Y.data) := by
    rw [guidelinesHeadAt,
      show stripPrefixCI "### GUIDELINES".data ("### GUIDELINES\n".data ++ Y.data)
        = some ('\n' :: Y.data) from stripPrefixCI_self "### GUIDELINES".data ('\n' :: Y.data)]
  have hmgY : matchGuidelinesAt ("### GUIDELINES\n".data ++ Y.data)
      = some (dropFinalNl (Y.data.dropWhile pyIsSpace)) := by
    have h := matchGuidelinesAt_some hB2 (by rw [hdwY]; exact hYnl)
    rw [hdwY] at h
    exact h
  -- the GUIDELINES scan over the whole response
  have condGX : ∀ a₂ ∈ X.data.tails, a₂ ≠ [] →
      matchGuidelinesAt (a₂ ++ ("\n```\n### GUIDELINES\n".data ++ Y.data)) = none := by
    intro a₂ ha hne
    show matchGuidelinesAt (a₂ ++ '\n' :: ("```\n### GUIDELINES\n".data ++ Y.data)) = none
    exact matchGuidelinesAt_none (guidelinesHeadAt_boundary hX2 ha hne _)
  have hscanG : scanPosO matchGuidelinesAt
      (("### CLIENT_RULES\n```javascript\n" ++ X ++ "\n```\n### GUIDELINES\n" ++ Y).data)
      = some ("### CLIENT_RULES\n```javascript\n".data ++ (X.data ++ ("\n```\n".data ++ [])),
          dropFinalNl (Y.data.dropWhile pyIsSpace)) := by
    rw [hTdata]
    rw [scanPosO_append_none "### CLIENT_RULES\n```javascript\n".data (lit1_guidelines_none _)]
    rw [scanPosO_append_none X.data condGX]
    rw [show ("\n```\n### GUIDELINES\n".data ++ Y.data)
        = "\n```\n".data ++ ("### GUIDELINES\n".data ++ Y.data) from rfl]
    rw [scanPosO_append_none "\n```\n".data (lit3_guidelines_none _)]
    rw [scanPosO_eq_some hmgY]
    rfl
  have hGfinal : pyStrip ⟨dropFinalNl (Y.data.dropWhile pyIsSpace)⟩ = pyStrip Y := by
    have h : stripChars (dropFinalNl (Y.data.dropWhile pyIsSpace)) = stripChars Y.data := by
      rw [stripChars_dropFinalNl, stripChars_dropWhile]
    show String.mk (stripChars (dropFinalNl (Y.data.dropWhile pyIsSpace)))
      = String.mk (stripChars Y.data)
    rw [h]
  by_cases hX0 : X.data.dropWhile pyIsSpace = []
  · -- the fenced body is pure whitespace: the capture is empty
    have hr3B : ("\n```\n### GUIDELINES\n".data ++ Y.data).dropWhile pyIsSpace
        = "```\n### GUIDELINES\n".data ++ Y.data := by
      rw [dropWhile_append₂,
        show ("\n```\n### GUIDELINES\n".data).dropWhile pyIsSpace
          = "```\n### GUIDELINES\n".data from by decide,
        if_neg (by decide)]
    have h5B : scanPosO (fun t => if ("```".data).isPrefixOf t then some () else none)
        ("```\n### GUIDELINES\n".data ++ Y.data) = some ([], ()) :=
      scanPosO_eq_some rfl
    have hmcr : matchClientRulesAt "### CLIENT_RULES".data
        (("### CLIENT_RULES\n```javascript\n" ++ X ++ "\n```\n### GUIDELINES\n" ++ Y).data)
        = some [] := by
      refine matchClientRulesAt_some h0 (by rw [hr1]; exact h2) ?_
      rw [hr3pre, dropWhile_append₂, if_pos hX0, hr3B]
      exact h5B
    have hscanCR : scanPosO (matchClientRulesAt "### CLIENT_RULES".data)
        (("### CLIENT_RULES\n```javascript\n" ++ X ++ "\n```\n### GUIDELINES\n" ++ Y).data)
        = some ([], []) := scanPosO_eq_some hmcr
    have hCRfinal : pyStrip ⟨([] : List Char)⟩ = pyStrip X := by
      have h : stripChars X.data = [] := by rw [stripChars, hX0]; rfl
      show String.mk (stripChars []) = String.mk (stripChars X.data)
      rw [h]
      rfl
    unfold parse_response
    simp only []
    rw [hscanCR, hscanG]
    show (pyStrip ⟨([] : List Char)⟩, pyStrip ⟨dropFinalNl (Y.data.dropWhile pyIsSpace)⟩)
      = (pyStrip X, pyStrip Y)
    rw [hCRfinal, hGfinal]
  · -- the fenced body has visible content: the capture is it plus the newline
    have condX : ∀ a₂ ∈ (X.data.dropWhile pyIsSpace).tails, a₂ ≠ [] →
        (fun t => if ("```".data).isPrefixOf t then some () else (none : Option Unit))
          (a₂ ++ ("\n```\n### GUIDELINES\n".data ++ Y.data)) = none := by
      intro a₂ ha hne
      have hb := not_prefix_boundary (by decide) (by decide) hX1' ha
        ("```\n### GUIDELINES\n".data ++ Y.data)
      show (if ("```".data).isPrefixOf
          (a₂ ++ '\n' :: ("```\n### GUIDELINES\n".data ++ Y.data)) = true
        then some () else (none : Option Unit)) = none
      rw [hb]
      rfl
    have hB : scanPosO (fun t => if ("```".data).isPrefixOf t then some () else none)
        ("\n```\n### GUIDELINES\n".data ++ Y.data) = some (['\n'], ()) := by
      rw [show ("\n```\n### GUIDELINES\n".data ++ Y.data)
          = "\n".data ++ ("```\n### GUIDELINES\n".data ++ Y.data) from rfl]
      rw [scanPosO_append_none "\n".data (fun a₂ ha hne => litnl_fence_none _ a₂ ha hne)]
      rw [scanPosO_eq_some (show (fun t => if ("```".data).isPrefixOf t then some () else none)
          ("```\n### GUIDELINES\n".data ++ Y.data) = some () from rfl)]
      rfl
    have h5 : scanPosO (fun t => if ("```".data).isPrefixOf t then some () else none)
        (X.data.dropWhile pyIsSpace ++ ("\n```\n### GUIDELINES\n".data ++ Y.data))
        = some (X.data.dropWhile pyIsSpace ++ ['\n'], ()) := by
      rw [scanPosO_append_none (X.data.dropWhile pyIsSpace) condX, hB]
      rfl
    have hmcr : matchClientRulesAt "### CLIENT_RULES".data
        (("### CLIENT_RULES\n```javascript\n" ++ X ++ "\n```\n### GUIDELINES\n" ++ Y).data)
        = some (X.data.dropWhile pyIsSpace ++ ['\n']) := by
      refine matchClientRulesAt_some h0 (by rw [hr1]; exact h2) ?_
      rw [hr3pre, dropWhile_append₂, if_neg hX0]
      exact h5
    have hscanCR : scanPosO (matchClientRulesAt "### CLIENT_RULES".data)
        (("### CLIENT_RULES\n```javascript\n" ++ X ++ "\n```\n### GUIDELINES\n" ++ Y).data)
        = some ([], X.data.dropWhile pyIsSpace ++ ['\n']) := scanPosO_eq_some hmcr
    have hCRfinal : pyStrip ⟨X.data.dropWhile pyIsSpace ++ ['\n']⟩ = pyStrip X := by
      have h : stripChars (X.data.dropWhile pyIsSpace ++ ['\n']) = stripChars X.data := by
        rw [stripChars_append_ws (by decide), stripChars_dropWhile]
      show String.mk (stripChars (X.data.dropWhile pyIsSpace ++ ['\n']))
        = String.mk (stripChars X.data)
      rw [h]
    unfold parse_response
    simp only []
    rw [hscanCR, hscanG]
    show (pyStrip ⟨X.data.dropWhile pyIsSpace ++ ['\n']⟩,
        pyStrip ⟨dropFinalNl (Y.data.dropWhile pyIsSpace)⟩) = (pyStrip X, pyStrip Y)
    rw [hCRfinal, hGfinal]

/-- Concrete instance of the round-trip: a response with body `var x = 1;`
and guidelines `Use formal tone.` parses back to exactly those strings. -/
theorem C6_parse_response_roundtrip_witness :
    (containsSub "```".data "var x = 1;".data = false
      ∧ containsSub "##".data "var x = 1;".data = false
      ∧ containsSub "```".data "Use formal tone.".data = false
      ∧ containsSub "##".data "Use formal tone.".data = false)
    ∧ parse_response ("### CLIENT_RULES\n```javascript\n" ++ "var x = 1;"
        ++ "\n```\n### GUIDELINES\n" ++ "Use formal tone.")
      = (pyStrip "var x = 1;", pyStrip "Use formal tone.") :=
  ⟨⟨by decide, by decide, by decide, by decide⟩,
    C6_parse_response_roundtrip "var x = 1;" "Use formal tone."
      (by decide) (by decide) (by decide) (by decide)⟩

end CoreCartographer
